import Mathlib

/-!
Verification of the morai cooperative fibre runtime (KazNX/morai).

This file shallowly embeds the parts of the C++ sources under `src/morai/`
that the verified properties refer to, and proves those properties.

Conventions of the embedding:
* C++ `double` time values are modelled as exact rationals `ℚ`.
* The C++ `WaitCondition` (`std::function<bool()>`) of a `Resumption` is
  modelled by `Option Bool`: presence of the callable together with the value
  it returns when the single call of `Fibre::resume` invokes it.
* The coroutine handle's behaviour when resumed is modelled by `BodyEffect`,
  one constructor per suspension mechanism offered by `Fibre::promise_type`
  (unhandled exception, `co_return`, `co_yield`/`co_await` of a `Resumption`,
  `co_await reschedule(...)`, `co_await moveTo(...)`).
* The pending move closure (`Frame::move_operation`,
  `std::function<bool(Fibre &)>`) is modelled by `MoveOp`: the captured target
  scheduler, the captured optional priority, and the value the closure's
  `target->move(fibre, priority)` call returns (`succeeds`).
-/

namespace Morai

/-- Rescheduling ordering preference, `src/morai/Resumption.hpp` (`PriorityPosition`). -/
inductive PriorityPosition : Type
  | Front
  | Back
deriving DecidableEq

/-- Priority object used for rescheduling, `src/morai/Resumption.hpp` (`Priority`). -/
structure Priority where
  priority : Int := 0
  position : PriorityPosition := PriorityPosition.Back
deriving DecidableEq

/-- Return mode of `Fibre::resume`, `src/morai/Resumption.hpp` (`ResumeMode`). -/
inductive ResumeMode : Type
  | Continue
  | Sleep
  | Moved
  | Expire
  | Exception
deriving DecidableEq

/-- Resumption record, `src/morai/Resumption.hpp` (`Resumption`): a relative or
absolute time and an optional wait condition.  The condition is modelled as the
value it returns when invoked during the present `resume` call. -/
structure Resumption where
  time_s : ℚ := 0
  condition : Option Bool := none
deriving DecidableEq

/-- Model of the pending move closure stored in `Frame::move_operation`
(`src/morai/Fibre.hpp`, set up by `Fibre::MoveAwaitable::await_suspend` from a
`MoveTo` value produced by `moveTo`, `src/morai/Move.hpp`): the captured target
scheduler (named by a number), the captured optional priority, and whether the
`target->move(fibre, priority)` call it wraps succeeds. -/
structure MoveOp where
  target : ℕ
  priority : Option Int := none
  succeeds : Bool
deriving DecidableEq

/-- Fibre frame data stored in the promise, `src/morai/Fibre.hpp`
(`detail::Frame`).  The `id` and `name` members play no role in the verified
properties of `resume` and are omitted here; the running-bit lifecycle of the
`Id` is modelled separately. -/
structure Frame where
  resumption : Resumption := {}
  reschedule : Option Priority := none
  exception : Bool := false
  priority : Int := 0
  move_operation : Option MoveOp := none
deriving DecidableEq

/-- Behaviour of the coroutine body when `_handle.resume()` runs it up to its
next suspension point, one constructor per suspension mechanism of
`Fibre::promise_type` (`src/morai/Fibre.hpp`):
* `throws` - the body raises; `unhandled_exception` stores the exception;
* `completes` - the body runs to `co_return`; `_handle.done()` becomes true;
* `suspendResumption r` - the body suspends via `co_yield`/`co_await` of a
  `Resumption` (`yield_value` or `Awaitable::await_suspend` store `r`);
* `suspendReschedule p` - the body suspends via `co_await reschedule(p)`
  (`RescheduleAwaitable::await_suspend` stores `p`);
* `suspendMove mv` - the body suspends via `co_await moveTo(...)`
  (`MoveAwaitable::await_suspend` stores the move closure `mv`). -/
inductive BodyEffect : Type
  | throws
  | completes
  | suspendResumption (r : Resumption)
  | suspendReschedule (p : Priority)
  | suspendMove (mv : MoveOp)
deriving DecidableEq

/-- Return value of `Fibre::resume`, `src/morai/Resumption.hpp` (`Resume`). -/
structure ResumeResult where
  mode : ResumeMode
  reschedule : Option Priority := none
deriving DecidableEq

/-- Full outcome of one `Fibre::resume` call in the embedding: the returned
`Resume` value, the post-call promise frame, whether `_handle.resume()` was
invoked (the coroutine body actually ran), which scheduler (if any) ownership
of the coroutine handle was transferred to, and whether the coroutine has
completed. -/
structure ResumeOutcome where
  result : ResumeResult
  frame : Frame
  bodyResumed : Bool
  movedTo : Option ℕ := none
  doneAfter : Bool := false
deriving DecidableEq

/-- Tail of `Fibre::resume` after the optional body resumption,
`src/morai/Fibre.cpp` lines 78-104: take out a pending move operation and
invoke it (returning `Moved` on success with ownership transferred, or
restoring the closure and returning `Continue` on failure); otherwise rewrite
a positive relative resumption time to the absolute epoch time and return
`Continue` carrying the exchanged reschedule request. -/
def resumeTail (frame : Frame) (bodyRan : Bool) (epoch_time_s : ℚ) : ResumeOutcome :=
  match frame.move_operation with
  | some mv =>
    if mv.succeeds then
      { result := { mode := ResumeMode.Moved },
        frame := { frame with move_operation := none },
        bodyResumed := bodyRan,
        movedTo := some mv.target }
    else
      { result := { mode := ResumeMode.Continue },
        frame := frame,
        bodyResumed := bodyRan }
  | none =>
    let frame2 :=
      if 0 < frame.resumption.time_s then
        { frame with resumption :=
            { frame.resumption with time_s := frame.resumption.time_s + epoch_time_s } }
      else frame
    { result := { mode := ResumeMode.Continue, reschedule := frame2.reschedule },
      frame := { frame2 with reschedule := none },
      bodyResumed := bodyRan }

/-- Embedding of `Fibre::resume`, `src/morai/Fibre.cpp` lines 40-104.
`fdone` is the value of `done()` at entry; `body` is the behaviour of the
coroutine body if `_handle.resume()` is reached. -/
def Fibre.resume (frame : Frame) (fdone : Bool) (body : BodyEffect)
    (epoch_time_s : ℚ) : ResumeOutcome :=
  if fdone then
    { result := { mode := ResumeMode.Expire }, frame := frame, bodyResumed := false,
      doneAfter := fdone }
  else
    -- Sleep gate, lines 49-59.
    if (match frame.resumption.condition with
        | some c => !c && (decide (frame.resumption.time_s ≤ 0)
                           || decide (epoch_time_s < frame.resumption.time_s))
        | none => decide (epoch_time_s < frame.resumption.time_s)) then
      { result := { mode := ResumeMode.Sleep }, frame := frame, bodyResumed := false }
    else
      -- Clear the resumption (line 63); resume only without a pending move (line 64).
      let frame1 : Frame := { frame with resumption := {} }
      if frame1.move_operation.isSome then
        resumeTail frame1 false epoch_time_s
      else
        match body with
        | BodyEffect.throws =>
          { result := { mode := ResumeMode.Exception },
            frame := { frame1 with exception := true },
            bodyResumed := true }
        | BodyEffect.completes =>
          { result := { mode := ResumeMode.Expire }, frame := frame1,
            bodyResumed := true, doneAfter := true }
        | BodyEffect.suspendResumption r =>
          resumeTail { frame1 with resumption := r } true epoch_time_s
        | BodyEffect.suspendReschedule p =>
          resumeTail { frame1 with reschedule := some p } true epoch_time_s
        | BodyEffect.suspendMove mv =>
          resumeTail { frame1 with move_operation := some mv } true epoch_time_s

/-- The resumption-permission predicate as the specification words it: the
fibre may resume when (a condition is present and returns true) or (no
condition is present and `now ≥ time_s`) or (the condition returns false but
`time_s > 0` and `now ≥ time_s`). -/
def Resumption.permits (r : Resumption) (now : ℚ) : Bool :=
  match r.condition with
  | some c => c || (decide (0 < r.time_s) && decide (r.time_s ≤ now))
  | none => decide (r.time_s ≤ now)

end Morai

namespace Morai

/-- The sleep gate computed at `src/morai/Fibre.cpp` lines 49-59 is the
negation of the resumption-permission predicate. -/
theorem resume_gate_eq_not_permits (r : Resumption) (now : ℚ) :
    (match r.condition with
     | some c => !c && (decide (r.time_s ≤ 0) || decide (now < r.time_s))
     | none => decide (now < r.time_s)) = !(r.permits now) := by
  obtain ⟨t, cond⟩ := r
  cases cond with
  | none =>
    by_cases h : t ≤ now <;>
      simp [Resumption.permits, h, not_le] <;>
      exact not_le.mp h
  | some c =>
    cases c <;>
      by_cases h1 : (0 : ℚ) < t <;> by_cases h2 : t ≤ now <;>
        simp [Resumption.permits, h1, h2, not_le, not_lt] <;>
        first
        | exact Or.inl (not_lt.mp h1)
        | exact Or.inr (not_le.mp h2)

end Morai

namespace Morai

/-- C1 counterexample: the claim as stated — for every fibre and every call,
`resume(now)` runs the coroutine body exactly when the current `Resumption`
permits it and otherwise returns `Sleep` without running it — is false on two
reachable inputs.  A fibre whose previous suspension installed a move
operation (`Fibre.cpp` line 64 guards `_handle.resume()` on
`!move_operation`) is not resumed even though its resumption permits, and the
call returns `Continue` (or `Moved`), never `Sleep`.  A fibre that is already
done returns `Expire` (`Fibre.cpp` lines 44-46) without the body running,
again with a permitting resumption. -/
theorem fibre_resume_gate_counterexample :
    (({ move_operation := some { target := 2, succeeds := false } }
        : Frame).resumption.permits 0 = true
     ∧ (Fibre.resume { move_operation := some { target := 2, succeeds := false } } false
          BodyEffect.completes 0).bodyResumed = false
     ∧ (Fibre.resume { move_operation := some { target := 2, succeeds := false } } false
          BodyEffect.completes 0).result.mode ≠ ResumeMode.Sleep)
    ∧ (({} : Frame).resumption.permits 0 = true
       ∧ (Fibre.resume {} true BodyEffect.completes 0).bodyResumed = false
       ∧ (Fibre.resume {} true BodyEffect.completes 0).result.mode = ResumeMode.Expire) := by
  decide

/-- C1 (amended): for every call on a fibre that is not done, `resume(now)`
returns `Sleep` without running the coroutine exactly when the current
`Resumption` does not permit it — it permits when (a condition is present and
returns true) or (no condition is present and `now` is at least the stored
`time_s`) or (the condition returns false but `time_s > 0` and `now` is at
least `time_s`).  When the resumption permits, the call never returns
`Sleep`, and the coroutine body runs exactly when no move operation is
pending: a fibre suspended on a move skips the body resumption even though
permitted.  A done fibre returns `Expire` without the coroutine running. -/
theorem fibre_resume_sleep_gate (frame : Frame) (body : BodyEffect) (now : ℚ) :
    (frame.resumption.permits now = false →
      (Fibre.resume frame false body now).result.mode = ResumeMode.Sleep
      ∧ (Fibre.resume frame false body now).bodyResumed = false)
    ∧ (frame.resumption.permits now = true →
      (Fibre.resume frame false body now).result.mode ≠ ResumeMode.Sleep
      ∧ ((Fibre.resume frame false body now).bodyResumed = true ↔
          frame.move_operation = none))
    ∧ ((Fibre.resume frame true body now).result.mode = ResumeMode.Expire
      ∧ (Fibre.resume frame true body now).bodyResumed = false) := by
  have hg := resume_gate_eq_not_permits frame.resumption now
  refine ⟨?_, ?_, rfl, rfl⟩
  · intro hp
    simp [Fibre.resume, hg, hp]
  · intro hp
    cases hmm : frame.move_operation with
    | none =>
      cases body <;>
        simp [Fibre.resume, hg, hp, hmm, resumeTail] <;>
        split <;> simp
    | some mv =>
      cases hs : mv.succeeds <;>
        simp [Fibre.resume, hg, hp, hmm, resumeTail, hs]

/-- Witness for `fibre_resume_sleep_gate` at concrete inputs: a frame with no
condition and deadline `5` does not permit time `0` and the call sleeps
without running the body; the default frame permits time `0`, the call does
not return `Sleep`, and the body runs since no move operation is pending. -/
theorem fibre_resume_sleep_gate_witness :
    ((Fibre.resume { resumption := { time_s := 5 } } false BodyEffect.completes 0).result.mode
       = ResumeMode.Sleep
     ∧ (Fibre.resume { resumption := { time_s := 5 } } false BodyEffect.completes 0).bodyResumed
       = false)
    ∧ ((Fibre.resume {} false BodyEffect.completes 0).result.mode ≠ ResumeMode.Sleep
       ∧ ((Fibre.resume {} false BodyEffect.completes 0).bodyResumed = true ↔
           ({} : Frame).move_operation = none)) :=
  ⟨(fibre_resume_sleep_gate { resumption := { time_s := 5 } } BodyEffect.completes 0).1
     (by decide),
   (fibre_resume_sleep_gate {} BodyEffect.completes 0).2.1 (by decide)⟩

end Morai

namespace Morai

/-- C3: a fibre that suspended with `co_await moveTo(T)` (so a move operation
is pending in its promise) is, on its next permitted `resume(now)`, settled in
exactly one of two ways, and its body is not resumed on the source: either the
move closure succeeds, ownership transfers to `T`, the closure is cleared and
`resume` returns `Moved`; or the closure fails, it is restored into the
promise for retry, ownership stays with the source and `resume` returns
`Continue` — never both, never neither. -/
theorem fibre_resume_move_dichotomy (frame : Frame) (mv : MoveOp)
    (body : BodyEffect) (now : ℚ)
    (hmv : frame.move_operation = some mv)
    (hp : frame.resumption.permits now = true) :
    (Fibre.resume frame false body now).bodyResumed = false
    ∧ (((Fibre.resume frame false body now).result.mode = ResumeMode.Moved
        ∧ (Fibre.resume frame false body now).movedTo = some mv.target
        ∧ (Fibre.resume frame false body now).frame.move_operation = none)
       ∨ ((Fibre.resume frame false body now).result.mode = ResumeMode.Continue
          ∧ (Fibre.resume frame false body now).movedTo = none
          ∧ (Fibre.resume frame false body now).frame.move_operation = some mv))
    ∧ ¬(((Fibre.resume frame false body now).result.mode = ResumeMode.Moved
         ∧ (Fibre.resume frame false body now).movedTo = some mv.target
         ∧ (Fibre.resume frame false body now).frame.move_operation = none)
        ∧ ((Fibre.resume frame false body now).result.mode = ResumeMode.Continue
           ∧ (Fibre.resume frame false body now).movedTo = none
           ∧ (Fibre.resume frame false body now).frame.move_operation = some mv)) := by
  have hg := resume_gate_eq_not_permits frame.resumption now
  cases hs : mv.succeeds <;>
    simp [Fibre.resume, hg, hp, hmv, resumeTail, hs]

/-- Witness for `fibre_resume_move_dichotomy` at a concrete input: a frame
with a pending (succeeding) move to scheduler 1 and a permitting default
resumption, at time 0; the body is not resumed there. -/
theorem fibre_resume_move_dichotomy_witness :
    ({ move_operation := some { target := 1, succeeds := true } } : Frame).move_operation
        = some { target := 1, succeeds := true }
    ∧ ({ move_operation := some { target := 1, succeeds := true } } : Frame).resumption.permits 0
        = true
    ∧ (Fibre.resume { move_operation := some { target := 1, succeeds := true } } false
        BodyEffect.completes 0).bodyResumed = false :=
  ⟨rfl, by decide,
   (fibre_resume_move_dichotomy { move_operation := some { target := 1, succeeds := true } }
      { target := 1, succeeds := true } BodyEffect.completes 0 rfl (by decide)).1⟩

end Morai

namespace Morai

/-- C8: whenever a permitted `resume(now)` runs the body of a fibre with no
pending move and the body yields a new `Resumption` `r`, the call returns
`Continue` and the `Resumption` stored in the promise has its time rewritten
to the absolute epoch value `now + r.time_s` when `r.time_s` is positive, and
is left unchanged otherwise; the condition is kept as yielded. -/
theorem fibre_resume_time_rewrite (frame : Frame) (r : Resumption) (now : ℚ)
    (hmove : frame.move_operation = none)
    (hp : frame.resumption.permits now = true) :
    (Fibre.resume frame false (BodyEffect.suspendResumption r) now).result.mode
        = ResumeMode.Continue
    ∧ (Fibre.resume frame false (BodyEffect.suspendResumption r) now).frame.resumption
        = { time_s := if 0 < r.time_s then now + r.time_s else r.time_s,
            condition := r.condition } := by
  have hg := resume_gate_eq_not_permits frame.resumption now
  by_cases ht : 0 < r.time_s <;>
    simp [Fibre.resume, hg, hp, hmove, resumeTail, ht, add_comm]

/-- Witness for `fibre_resume_time_rewrite` at a concrete input: a fibre with
no pending move and a permitting resumption, whose body yields a relative
3-second sleep at epoch time 10; the stored resumption becomes absolute. -/
theorem fibre_resume_time_rewrite_witness :
    ({} : Frame).move_operation = none
    ∧ ({} : Frame).resumption.permits 10 = true
    ∧ ((Fibre.resume {} false (BodyEffect.suspendResumption { time_s := 3 }) 10).result.mode
          = ResumeMode.Continue
       ∧ (Fibre.resume {} false (BodyEffect.suspendResumption { time_s := 3 }) 10).frame.resumption
          = { time_s := if 0 < (3 : ℚ) then 10 + 3 else 3, condition := none }) :=
  ⟨rfl, by decide, fibre_resume_time_rewrite {} { time_s := 3 } 10 rfl (by decide)⟩

end Morai

namespace Morai

/-- Operations of the runtime classified by their effect on a fibre `Id`'s
shared running bit.  By inspection of the sources, `Id::setRunning` is private
with `Fibre` as the only friend (`src/morai/Id.hpp`), and its only callers are:
* `Fibre::Fibre(handle, id)` (`src/morai/Fibre.hpp` lines 208-214), run from
  `promise_type::get_return_object` when the coroutine is created, which sets
  the bit true — `construct`;
* `Fibre::promise_type::~promise_type` (`src/morai/Fibre.hpp` lines 129-130),
  which sets the bit false — `promiseDestroy`;
* the `Id(value, running)` constructor, which passes `running` through; every
  call site in the repository passes the default `false` (no write of true).
Every other operation of the scheduler, thread pool and queues leaves the bit
alone — `other`. -/
inductive RunEvent : Type
  | construct
  | promiseDestroy
  | other
deriving DecidableEq

/-- Effect of a runtime operation on the shared running bit: `some b` writes
`b`, `none` leaves the bit unchanged. -/
def runningWrite : RunEvent → Option Bool
  | RunEvent.construct => some true
  | RunEvent.promiseDestroy => some false
  | RunEvent.other => none

/-- Value of the shared running bit after a sequence of runtime operations,
starting from `init` (a fresh `Id` cell starts not running,
`src/morai/Id.hpp`). -/
def runningAfter (init : Bool) : List RunEvent → Bool
  | [] => init
  | e :: rest => runningAfter ((runningWrite e).getD init) rest

theorem runningAfter_append (init : Bool) (l1 l2 : List RunEvent) :
    runningAfter init (l1 ++ l2) = runningAfter (runningAfter init l1) l2 := by
  induction l1 generalizing init with
  | nil => rfl
  | cons e rest ih => simp [runningAfter, ih]

theorem runningAfter_take_succ (init : Bool) (tr : List RunEvent) (i : ℕ) :
    runningAfter init (tr.take (i + 1)) =
      match tr.get? i with
      | some e => (runningWrite e).getD (runningAfter init (tr.take i))
      | none => runningAfter init (tr.take i) := by
  rw [List.take_succ, runningAfter_append]
  rw [show tr[i]? = tr.get? i from (List.get?_eq_getElem? tr i).symm]
  cases h : tr.get? i <;> simp [h, runningAfter]

/-- C2: over any trace of runtime operations in which a fibre's frame is
constructed at position `c` (running bit set true, before `start()` returns)
and its promise is destroyed at position `d` (and at no other positions),
the `Id` reports running at every point from the construction until the
destruction, reports not running at every point from the destruction onwards,
and no operation of the runtime ever writes true other than construction. -/
theorem id_running_lifecycle (tr : List RunEvent) (c d : ℕ)
    (hc : tr.get? c = some RunEvent.construct)
    (hd : tr.get? d = some RunEvent.promiseDestroy)
    (hcd : c < d)
    (huc : ∀ i, i < tr.length → i ≠ c → tr.get? i ≠ some RunEvent.construct)
    (hud : ∀ i, i < tr.length → i ≠ d → tr.get? i ≠ some RunEvent.promiseDestroy) :
    (∀ i, c ≤ i → i < d → runningAfter false (tr.take (i + 1)) = true)
    ∧ (∀ i, d ≤ i → runningAfter false (tr.take (i + 1)) = false)
    ∧ (∀ e, runningWrite e = some true → e = RunEvent.construct) := by
  have hdlen : d < tr.length := by
    obtain ⟨h, -⟩ := List.get?_eq_some.mp hd
    exact h
  refine ⟨?_, ?_, ?_⟩
  · intro i hci hid
    induction i, hci using Nat.le_induction with
    | base =>
      rw [runningAfter_take_succ, hc]
      rfl
    | succ i hci ih =>
      have hlen : i + 1 < tr.length := lt_trans hid hdlen
      cases he : tr.get? (i + 1) with
      | none =>
        exact absurd (List.get?_eq_none.mp he) (not_le.mpr hlen)
      | some e =>
        cases e with
        | construct => exact absurd he (huc _ hlen (by omega))
        | promiseDestroy => exact absurd he (hud _ hlen (by omega))
        | other =>
          rw [runningAfter_take_succ, he]
          simpa [runningWrite] using ih (by omega)
  · intro i hdi
    induction i, hdi using Nat.le_induction with
    | base =>
      rw [runningAfter_take_succ, hd]
      rfl
    | succ i hdi ih =>
      by_cases hlen : i + 1 < tr.length
      · cases he : tr.get? (i + 1) with
        | none =>
          exact absurd (List.get?_eq_none.mp he) (not_le.mpr hlen)
        | some e =>
          cases e with
          | construct => exact absurd he (huc _ hlen (by omega))
          | promiseDestroy => exact absurd he (hud _ hlen (by omega))
          | other =>
            rw [runningAfter_take_succ, he]
            simpa [runningWrite] using ih
      · have hnone : tr.get? (i + 1) = none := List.get?_eq_none.mpr (by omega)
        rw [runningAfter_take_succ, hnone]
        exact ih
  · intro e h
    cases e <;> simp [runningWrite] at h ⊢

/-- Witness for `id_running_lifecycle` on the concrete trace
construct, other, promiseDestroy, other (c = 0, d = 2): the running bit is
true after position 1 (between construction and destruction) and false after
position 3 (after destruction). -/
theorem id_running_lifecycle_witness :
    ([RunEvent.construct, RunEvent.other, RunEvent.promiseDestroy,
        RunEvent.other].get? 0 = some RunEvent.construct)
    ∧ ([RunEvent.construct, RunEvent.other, RunEvent.promiseDestroy,
        RunEvent.other].get? 2 = some RunEvent.promiseDestroy)
    ∧ (0 : ℕ) < 2
    ∧ runningAfter false ([RunEvent.construct, RunEvent.other, RunEvent.promiseDestroy,
        RunEvent.other].take 2) = true
    ∧ runningAfter false ([RunEvent.construct, RunEvent.other, RunEvent.promiseDestroy,
        RunEvent.other].take 4) = false := by
  refine ⟨rfl, rfl, by decide, ?_, ?_⟩
  · exact (id_running_lifecycle
      [RunEvent.construct, RunEvent.other, RunEvent.promiseDestroy, RunEvent.other]
      0 2 rfl rfl (by decide) (by decide) (by decide)).1 1 (by decide) (by decide)
  · exact (id_running_lifecycle
      [RunEvent.construct, RunEvent.other, RunEvent.promiseDestroy, RunEvent.other]
      0 2 rfl rfl (by decide) (by decide) (by decide)).2.1 3 (by decide)

end Morai

namespace Morai

/-- Loop of `Scheduler::selectQueue` (`src/morai/Scheduler.cpp` lines 110-125)
and `ThreadPool::selectQueue` (`src/morai/ThreadPool.cpp` lines 158-173) over
the queue priority levels in vector order: an exact priority match returns
that index immediately; a level below the priority updates `best_idx`; a level
above it breaks.  Returns `(some idx, _)` on an exact match and
`(none, best_idx)` otherwise. -/
def selectQueueLoop (p : Int) : List Int → ℕ → ℕ → Option ℕ × ℕ
  | [], _, best => (none, best)
  | l :: rest, i, best =>
    if p = l then (some i, best)
    else if p > l then selectQueueLoop p rest (i + 1) i
    else (none, best)

/-- Embedding of `Scheduler::selectQueue`, `src/morai/Scheduler.cpp` lines
106-132: returns the index of the selected queue among the queues (one per
declared priority level, in ascending order per the constructor) and whether
the priority-mismatch error was logged. -/
def Scheduler.selectQueue (levels : List Int) (priority : Int) : ℕ × Bool :=
  match selectQueueLoop priority levels 0 0 with
  | (some idx, _) => (idx, false)
  | (none, best) => (best, true)

/-- Embedding of `ThreadPool::selectQueue`, `src/morai/ThreadPool.cpp` lines
154-180, which implements the same selection over the pool's shared queues. -/
def ThreadPool.selectQueue (levels : List Int) (priority : Int) : ℕ × Bool :=
  match selectQueueLoop priority levels 0 0 with
  | (some idx, _) => (idx, false)
  | (none, best) => (best, true)

theorem selectQueueLoop_all_above (p : Int) (levels : List Int)
    (h : ∀ l ∈ levels, p < l) :
    ∀ i best, selectQueueLoop p levels i best = (none, best) := by
  intro i best
  cases levels with
  | nil => rfl
  | cons l rest =>
    have hl : p < l := h l (List.mem_cons_self l rest)
    simp [selectQueueLoop, ne_of_lt hl, not_lt.mpr (le_of_lt hl)]

theorem selectQueueLoop_mismatch (p : Int) (levels : List Int)
    (hs : levels.Sorted (· < ·)) (hnm : p ∉ levels) :
    ∀ i best, 0 < (levels.takeWhile (fun l => decide (l < p))).length →
      selectQueueLoop p levels i best =
        (none, i + (levels.takeWhile (fun l => decide (l < p))).length - 1) := by
  induction levels with
  | nil => intro i best h; simp at h
  | cons a rest ih =>
    intro i best hcount
    have ha : a < p := by
      by_contra hge
      simp [List.takeWhile, hge] at hcount
    have hne : p ≠ a := fun h => hnm (h ▸ List.mem_cons_self a rest)
    have htw : (a :: rest).takeWhile (fun l => decide (l < p)) =
        a :: rest.takeWhile (fun l => decide (l < p)) := by
      simp [List.takeWhile, ha]
    rw [htw]
    simp only [selectQueueLoop, if_neg hne, if_pos (by exact ha)]
    by_cases hrest : 0 < (rest.takeWhile (fun l => decide (l < p))).length
    · rw [ih hs.of_cons (fun h => hnm (List.mem_cons_of_mem a h)) (i + 1) i hrest]
      refine Prod.ext rfl ?_
      simp only [List.length_cons]
      omega
    · have hzero : (rest.takeWhile (fun l => decide (l < p))).length = 0 := by omega
      cases rest with
      | nil => simp [selectQueueLoop]
      | cons b rest2 =>
        have hb : ¬(b < p) := by
          by_contra hb
          simp [List.takeWhile, hb] at hzero
        have hbne : p ≠ b := fun h => hnm (by
          rw [h]
          exact List.mem_cons_of_mem a (List.mem_cons_self b rest2))
        have hbp : p < b := lt_of_le_of_ne (not_lt.mp hb) hbne
        simp [selectQueueLoop, hbne, not_lt.mpr (le_of_lt hbp), List.takeWhile, hb]

end Morai

namespace Morai

theorem takeWhile_length_le (f : Int → Bool) (l : List Int) :
    (l.takeWhile f).length ≤ l.length := by
  have h := List.takeWhile_append_dropWhile f l
  calc (l.takeWhile f).length
      ≤ (l.takeWhile f).length + (l.dropWhile f).length := Nat.le_add_right _ _
    _ = l.length := by rw [← List.length_append, h]

theorem mem_of_mem_takeWhile (f : Int → Bool) (l : List Int) (x : Int)
    (h : x ∈ l.takeWhile f) : x ∈ l := by
  have h2 := List.takeWhile_append_dropWhile f l
  rw [← h2]
  exact List.mem_append_left _ h

/-- C6 counterexample: with declared priority levels 10 and 20 and a start
priority of 5 that is below every declared level, `selectQueue` places the
fibre on the queue with level 10 — which is not a lower bound of 5 — so the
claim that the chosen queue's declared level is "the greatest declared level
at most p" fails for a priority below every declared level. -/
theorem select_queue_lower_bound_counterexample :
    (Scheduler.selectQueue [10, 20] 5).2 = true
    ∧ (Scheduler.selectQueue [10, 20] 5).1 = 0
    ∧ [(10 : Int), 20].get? 0 = some 10
    ∧ ¬((10 : Int) ≤ 5)
    ∧ ¬∃ l ∈ [(10 : Int), 20], l ≤ 5 := by
  decide

/-- C6 (amended): for a mismatched priority `p` (not among the sorted declared
levels), both `Scheduler::selectQueue` and `ThreadPool::selectQueue` log an
error yet still succeed, choosing a valid queue index; the chosen queue's
level is the greatest declared level at most `p` whenever some declared level
is at most `p`, and is the lowest declared level (index 0) when `p` is below
every declared level. -/
theorem select_queue_closest_lower_bound (levels : List Int) (p : Int)
    (hs : levels.Sorted (· < ·)) (hne : levels ≠ []) (hnm : p ∉ levels) :
    (Scheduler.selectQueue levels p).2 = true
    ∧ ThreadPool.selectQueue levels p = Scheduler.selectQueue levels p
    ∧ (Scheduler.selectQueue levels p).1 < levels.length
    ∧ ∃ m, levels.get? (Scheduler.selectQueue levels p).1 = some m
        ∧ (∀ l ∈ levels, l ≤ p → l ≤ m)
        ∧ ((∃ l ∈ levels, l ≤ p) → m ≤ p)
        ∧ ((∀ l ∈ levels, p < l) → (Scheduler.selectQueue levels p).1 = 0) := by
  have hlt : ∀ l ∈ levels, l ≤ p → l < p := by
    intro l hl hlp
    exact lt_of_le_of_ne hlp (fun he => hnm (he ▸ hl))
  by_cases hpos : 0 < (levels.takeWhile (fun l => decide (l < p))).length
  · -- Some declared level is below p; the loop lands on the greatest one.
    have hloop := selectQueueLoop_mismatch p levels hs hnm 0 0 hpos
    have hsel : Scheduler.selectQueue levels p =
        ((levels.takeWhile (fun l => decide (l < p))).length - 1, true) := by
      simp [Scheduler.selectQueue, hloop]
    have hsel2 : ThreadPool.selectQueue levels p =
        ((levels.takeWhile (fun l => decide (l < p))).length - 1, true) := by
      simp [ThreadPool.selectQueue, hloop]
    set count := (levels.takeWhile (fun l => decide (l < p))).length with hcount
    have hnlen : count - 1 < levels.length := by
      have h2 : count ≤ levels.length := by
        rw [hcount]
        exact takeWhile_length_le (fun l => decide (l < p)) levels
      omega
    set m := levels.get ⟨count - 1, hnlen⟩ with hm
    have hmem_tw : m ∈ levels.takeWhile (fun l => decide (l < p)) := by
      have happ := List.takeWhile_append_dropWhile (fun l => decide (l < p)) levels
      have hget : levels.get? (count - 1) =
          (levels.takeWhile (fun l => decide (l < p))).get? (count - 1) := by
        conv_lhs => rw [← happ]
        have hb : count - 1 < (levels.takeWhile (fun l => decide (l < p))).length := by
          rw [← hcount]
          omega
        exact List.get?_append hb
      have hg : levels.get? (count - 1) = some m := List.get?_eq_get hnlen
      rw [hg] at hget
      exact List.get?_mem hget.symm
    have hmp : m < p := by
      have := List.mem_takeWhile_imp hmem_tw
      simpa using this
    refine ⟨by rw [hsel], by rw [hsel, hsel2], by rw [hsel]; exact hnlen,
      m, by rw [hsel]; exact List.get?_eq_get hnlen, ?_, fun _ => le_of_lt hmp, ?_⟩
    · -- m is an upper bound of the declared levels at most p.
      intro l hl hlp
      obtain ⟨⟨j, hj⟩, hlj⟩ := List.mem_iff_get.mp hl
      have hjcount : j < count := by
        by_contra hge
        push_neg at hge
        have hclen : count < levels.length := lt_of_le_of_lt hge hj
        -- The element at index count is the head of the dropWhile part, hence not < p.
        have hdrop_len : 0 < (levels.dropWhile (fun l => decide (l < p))).length := by
          have happ := List.takeWhile_append_dropWhile (fun l => decide (l < p)) levels
          have := congrArg List.length happ
          simp only [List.length_append] at this
          omega
        have hd_not : ¬(levels.dropWhile (fun l => decide (l < p))).get ⟨0, hdrop_len⟩ < p := by
          have := List.dropWhile_get_zero_not (fun l => decide (l < p)) levels hdrop_len
          simpa using this
        have hdval : levels.get? count =
            some ((levels.dropWhile (fun l => decide (l < p))).get ⟨0, hdrop_len⟩) := by
          have happ := List.takeWhile_append_dropWhile (fun l => decide (l < p)) levels
          conv_lhs => rw [← happ]
          rw [List.get?_append_right (by omega)]
          simp only [hcount.symm]
          rw [show count - count = 0 by omega]
          exact List.get?_eq_get hdrop_len
        have hdmem : levels.get ⟨count, hclen⟩ =
            (levels.dropWhile (fun l => decide (l < p))).get ⟨0, hdrop_len⟩ := by
          have := List.get?_eq_get hclen
          rw [this] at hdval
          exact Option.some_injective _ hdval
        -- Monotonicity carries the lower bound past index count to index j.
        have hmono : levels.get ⟨count, hclen⟩ ≤ levels.get ⟨j, hj⟩ :=
          hs.get_strictMono.monotone (by exact Fin.mk_le_mk.mpr hge)
        rw [hdmem] at hmono
        have : p ≤ levels.get ⟨j, hj⟩ := le_trans (not_lt.mp hd_not) hmono
        rw [hlj] at this
        exact absurd (hlt l hl hlp) (not_lt.mpr this)
      have : levels.get ⟨j, hj⟩ ≤ levels.get ⟨count - 1, hnlen⟩ :=
        hs.get_strictMono.monotone (Fin.mk_le_mk.mpr (by omega))
      rw [hlj] at this
      exact this
    · -- If every declared level exceeds p, the takeWhile prefix is empty.
      intro hall
      exfalso
      have hlen_tw : 0 < (levels.takeWhile (fun l => decide (l < p))).length := by
        rw [← hcount]
        exact hpos
      have hne_tw : levels.takeWhile (fun l => decide (l < p)) ≠ [] :=
        List.length_pos.mp hlen_tw
      obtain ⟨x, hx⟩ := List.exists_mem_of_ne_nil _ hne_tw
      have hx_lt : x < p := by simpa using List.mem_takeWhile_imp hx
      exact absurd (hall x (mem_of_mem_takeWhile _ _ _ hx)) (not_lt.mpr (le_of_lt hx_lt))
  · -- p is below every declared level; the loop keeps best_idx = 0.
    cases levels with
    | nil => exact absurd rfl hne
    | cons a rest =>
      have hfa : ¬(a < p) := by
        intro hap
        have : (a :: rest).takeWhile (fun l => decide (l < p)) =
            a :: rest.takeWhile (fun l => decide (l < p)) := by
          simp [List.takeWhile, hap]
        rw [this] at hpos
        simp at hpos
      have hpa : p < a := lt_of_le_of_ne (not_lt.mp hfa)
        (fun h => hnm (by rw [h]; exact List.mem_cons_self a rest))
      have hall : ∀ l ∈ a :: rest, p < l := by
        intro l hl
        rcases List.mem_cons.mp hl with h | h
        · rw [h]; exact hpa
        · exact lt_trans hpa ((List.sorted_cons.mp hs).1 l h)
      have hloop := selectQueueLoop_all_above p (a :: rest) hall 0 0
      have hsel : Scheduler.selectQueue (a :: rest) p = (0, true) := by
        simp [Scheduler.selectQueue, hloop]
      have hsel2 : ThreadPool.selectQueue (a :: rest) p = (0, true) := by
        simp [ThreadPool.selectQueue, hloop]
      refine ⟨by rw [hsel], by rw [hsel, hsel2], by rw [hsel]; simp,
        a, by rw [hsel]; rfl, ?_, ?_, fun _ => by rw [hsel]⟩
      · intro l hl hlp
        exact absurd (hall l hl) (not_lt.mpr hlp)
      · intro ⟨l, hl, hlp⟩
        exact absurd (hall l hl) (not_lt.mpr hlp)

/-- Witness for `select_queue_closest_lower_bound` at declared levels 0 and
10 with mismatched priority 5: level 0 is chosen (the greatest level at most
5) and the error is logged. -/
theorem select_queue_closest_lower_bound_witness :
    ([(0 : Int), 10].Sorted (· < ·)) ∧ ([(0 : Int), 10] ≠ []) ∧ ((5 : Int) ∉ [(0 : Int), 10])
    ∧ ((Scheduler.selectQueue [0, 10] 5).2 = true
       ∧ ThreadPool.selectQueue [0, 10] 5 = Scheduler.selectQueue [0, 10] 5
       ∧ (Scheduler.selectQueue [0, 10] 5).1 < [(0 : Int), 10].length
       ∧ ∃ m, [(0 : Int), 10].get? (Scheduler.selectQueue [0, 10] 5).1 = some m
           ∧ (∀ l ∈ [(0 : Int), 10], l ≤ 5 → l ≤ m)
           ∧ ((∃ l ∈ [(0 : Int), 10], l ≤ 5) → m ≤ 5)
           ∧ ((∀ l ∈ [(0 : Int), 10], 5 < l) → (Scheduler.selectQueue [0, 10] 5).1 = 0)) :=
  ⟨by decide, by decide, by decide,
   select_queue_closest_lower_bound [0, 10] 5 (by decide) (by decide) (by decide)⟩

end Morai

namespace Morai

/-- Embedding of the `MoveTo` helper record, `src/morai/Move.hpp`: the target
scheduler (named by a number; `nullptr` is `none`) and the optional priority. -/
structure MoveTo where
  target : Option ℕ := none
  priority : Option Int := none
deriving DecidableEq

/-- Embedding of `moveTo(scheduler, priority)`, `src/morai/Move.hpp` lines
26-41: builds a `MoveTo` aimed at the scheduler; `priority` defaults to
`std::nullopt`. -/
def moveTo (scheduler : ℕ) (priority : Option Int := none) : MoveTo :=
  { target := some scheduler, priority := priority }

/-- Embedding of `Fibre::MoveAwaitable::await_suspend`,
`src/morai/Fibre.hpp` lines 326-339: when a target is present, a move
operation closure capturing the `MoveTo` value is stored in the promise; the
closure calls `move.target->move(fibre, move.priority)`, forwarding the
captured priority unchanged.  The stored `MoveOp` records that target and
priority (`succeeds` abstracts the outcome of the future `move` call). -/
def MoveAwaitable.await_suspend (frame : Frame) (move : MoveTo)
    (succeeds : Bool) : Frame :=
  match move.target with
  | some t =>
    { frame with move_operation := some { target := t, priority := move.priority,
                                          succeeds := succeeds } }
  | none => frame

/-- Result of a successful `ThreadPool::move`: which queue index was selected
and whether the push succeeded. -/
structure ThreadPoolMoveResult where
  queueIdx : ℕ
  pushed : Bool
deriving DecidableEq

/-- Embedding of `ThreadPool::move(fibre, priority)`, `src/morai/ThreadPool.cpp`
lines 139-152.  The C++ body reads `*priority` unconditionally in
`selectQueue(*priority, false)`; dereferencing an empty `std::optional` is
undefined behaviour, modelled here as the `none` error branch.  `levels` are
the pool's queue priority levels and `pushOk` is whether `tryPush` into the
selected queue succeeds. -/
def ThreadPool.move (levels : List Int) (priority : Option Int)
    (pushOk : Bool) : Option ThreadPoolMoveResult :=
  match priority with
  | none => none
  | some p => some { queueIdx := (ThreadPool.selectQueue levels p).1, pushed := pushOk }

/-- C9: `ThreadPool::move` reads its optional priority argument
unconditionally when selecting the target queue, so it is well-defined only
when a priority value is supplied: for every call with `priority = none` the
empty-optional access (the embedding's error branch) is reached, while any
call with a supplied priority is well-defined; and `co_await moveTo(pool)`
produces exactly such a `none` priority by default, since `moveTo` defaults
its priority to `none` and `MoveAwaitable::await_suspend` stores a move
closure forwarding that priority unchanged. -/
theorem thread_pool_move_requires_priority (levels : List Int) (pushOk : Bool)
    (frame : Frame) (scheduler : ℕ) (succeeds : Bool) (p : Int) :
    ThreadPool.move levels none pushOk = none
    ∧ (ThreadPool.move levels (some p) pushOk).isSome = true
    ∧ (moveTo scheduler).priority = none
    ∧ (MoveAwaitable.await_suspend frame (moveTo scheduler) succeeds).move_operation
        = some { target := scheduler, priority := none, succeeds := succeeds } := by
  refine ⟨rfl, rfl, rfl, ?_⟩
  simp [MoveAwaitable.await_suspend, moveTo]

end Morai

namespace Morai

/-- Exception handling modes, `src/morai/Common.hpp` lines 23-29.  The enum is
declared in the sources (and the repository's tests construct schedulers with
a mode and call `setExceptionHandling`), but the morai `Scheduler` stores no
such mode and `updateQueue` never consults one. -/
inductive ExceptionHandling : Type
  | Log
  | Rethrow
deriving DecidableEq

/-- Outcome of processing one popped entry inside `Scheduler::updateQueue`
(`src/morai/Scheduler.cpp` lines 149-196), abstracting the entry by what its
`cancel()` check and `resume` call produce:
* `cancelled` - the popped fibre is a cancelled placeholder (lines 151-156);
* `expire` - `resume` returns `Expire` or `Moved` (lines 159-164);
* `thrown` - `resume` returns `Exception`; the stored exception is rethrown
  out of `update()` (lines 166-174);
* `reschedAway` - `resume` returns `Continue` with a reschedule resolving to a
  different queue: pushed there and counted expired here (lines 176-193);
* `requeue` - `resume` returns `Sleep`, or `Continue` staying in this queue:
  pushed to the back of this queue (line 196). -/
inductive FibreBeh : Type
  | cancelled
  | expire
  | thrown
  | reschedAway
  | requeue
deriving DecidableEq

/-- Final state of one `Scheduler::updateQueue` drain: loop iterations
performed, remaining queue contents, the `expired_count` accumulator, how many
fibres the per-iteration `pumpMoveQueue` calls delivered into this queue, and
whether an exception propagated out (aborting the drain). -/
structure DrainResult where
  iters : ℕ
  queue : List FibreBeh
  expired : ℕ
  delivered : ℕ
  threw : Bool
deriving DecidableEq

/-- Fuel-indexed loop of `Scheduler::updateQueue`, `src/morai/Scheduler.cpp`
lines 142-197: while `i < queue.size() + expired_count`, pump the move queue
(this iteration's `arrivals` head joins the back of the queue), pop the front
entry and dispatch on it.  The fuel only bounds the iteration count; callers
supply fuel exceeding the exact number of iterations (see
`updateQueueLoop_spec`), so the fuel-exhaustion branch is never taken there. -/
def updateQueueLoop : ℕ → List FibreBeh → List (List FibreBeh) → ℕ → ℕ → ℕ → DrainResult
  | 0, q, _, i, e, d =>
    { iters := i, queue := q, expired := e, delivered := d, threw := false }
  | fuel + 1, q, arrivals, i, e, d =>
    if i < q.length + e then
      match q ++ arrivals.headD [] with
      | [] => { iters := i, queue := [], expired := e, delivered := d, threw := false }
      | f :: rest =>
        let d2 := d + (arrivals.headD []).length
        match f with
        | FibreBeh.cancelled => updateQueueLoop fuel rest arrivals.tail (i + 1) (e + 1) d2
        | FibreBeh.expire => updateQueueLoop fuel rest arrivals.tail (i + 1) (e + 1) d2
        | FibreBeh.thrown =>
          { iters := i + 1, queue := rest, expired := e, delivered := d2, threw := true }
        | FibreBeh.reschedAway => updateQueueLoop fuel rest arrivals.tail (i + 1) (e + 1) d2
        | FibreBeh.requeue =>
          updateQueueLoop fuel (rest ++ [FibreBeh.requeue]) arrivals.tail (i + 1) e d2
    else
      { iters := i, queue := q, expired := e, delivered := d, threw := false }

/-- One drain of a priority queue by `Scheduler::updateQueue`
(`src/morai/Scheduler.cpp` lines 134-198): `q` is the queue at loop entry
(after the pre-loop `pumpMoveQueue` of line 137), `arrivals` lists the fibres
the move channel delivers into this queue at each iteration's
`pumpMoveQueue`.  The `mode` parameter is the exception handling mode the
repository's tests configure; the loop body never reads it (the `TODO` at
line 170 notes the missing log option), so it is passed through unused. -/
def updateQueueDrain (mode : ExceptionHandling) (q : List FibreBeh)
    (arrivals : List (List FibreBeh)) : DrainResult :=
  updateQueueLoop ((arrivals.map List.length).sum + q.length + 1) q arrivals 0 0 0

theorem sum_map_length_tail (arrivals : List (List FibreBeh)) :
    ((arrivals.tail.map List.length).sum + (arrivals.headD []).length)
      = (arrivals.map List.length).sum := by
  cases arrivals <;> simp [Nat.add_comm]

end Morai


namespace Morai

theorem updateQueueLoop_step_cancelled (fuel : ℕ) (q : List FibreBeh)
    (arrivals : List (List FibreBeh)) (i e d : ℕ) (rest : List FibreBeh)
    (hcond : i < q.length + e)
    (hqa : q ++ arrivals.headD [] = FibreBeh.cancelled :: rest) :
    updateQueueLoop (fuel + 1) q arrivals i e d =
      updateQueueLoop fuel rest arrivals.tail (i + 1) (e + 1)
        (d + (arrivals.headD []).length) := by
  rw [updateQueueLoop, if_pos hcond, hqa]

theorem updateQueueLoop_step_expire (fuel : ℕ) (q : List FibreBeh)
    (arrivals : List (List FibreBeh)) (i e d : ℕ) (rest : List FibreBeh)
    (hcond : i < q.length + e)
    (hqa : q ++ arrivals.headD [] = FibreBeh.expire :: rest) :
    updateQueueLoop (fuel + 1) q arrivals i e d =
      updateQueueLoop fuel rest arrivals.tail (i + 1) (e + 1)
        (d + (arrivals.headD []).length) := by
  rw [updateQueueLoop, if_pos hcond, hqa]

theorem updateQueueLoop_step_reschedAway (fuel : ℕ) (q : List FibreBeh)
    (arrivals : List (List FibreBeh)) (i e d : ℕ) (rest : List FibreBeh)
    (hcond : i < q.length + e)
    (hqa : q ++ arrivals.headD [] = FibreBeh.reschedAway :: rest) :
    updateQueueLoop (fuel + 1) q arrivals i e d =
      updateQueueLoop fuel rest arrivals.tail (i + 1) (e + 1)
        (d + (arrivals.headD []).length) := by
  rw [updateQueueLoop, if_pos hcond, hqa]

theorem updateQueueLoop_step_requeue (fuel : ℕ) (q : List FibreBeh)
    (arrivals : List (List FibreBeh)) (i e d : ℕ) (rest : List FibreBeh)
    (hcond : i < q.length + e)
    (hqa : q ++ arrivals.headD [] = FibreBeh.requeue :: rest) :
    updateQueueLoop (fuel + 1) q arrivals i e d =
      updateQueueLoop fuel (rest ++ [FibreBeh.requeue]) arrivals.tail (i + 1) e
        (d + (arrivals.headD []).length) := by
  rw [updateQueueLoop, if_pos hcond, hqa]

theorem updateQueueLoop_step_thrown (fuel : ℕ) (q : List FibreBeh)
    (arrivals : List (List FibreBeh)) (i e d : ℕ) (rest : List FibreBeh)
    (hcond : i < q.length + e)
    (hqa : q ++ arrivals.headD [] = FibreBeh.thrown :: rest) :
    updateQueueLoop (fuel + 1) q arrivals i e d =
      { iters := i + 1, queue := rest, expired := e,
        delivered := d + (arrivals.headD []).length, threw := true } := by
  rw [updateQueueLoop, if_pos hcond, hqa]

theorem updateQueueLoop_exit (fuel : ℕ) (q : List FibreBeh)
    (arrivals : List (List FibreBeh)) (i e d : ℕ)
    (hcond : ¬i < q.length + e) :
    updateQueueLoop (fuel + 1) q arrivals i e d =
      { iters := i, queue := q, expired := e, delivered := d, threw := false } := by
  rw [updateQueueLoop, if_neg hcond]

end Morai

namespace Morai

theorem updateQueueLoop_spec (fuel : ℕ) :
    ∀ (q : List FibreBeh) (arrivals : List (List FibreBeh)) (i e d : ℕ),
      i ≤ q.length + e → e ≤ i →
      FibreBeh.thrown ∉ q → (∀ l ∈ arrivals, FibreBeh.thrown ∉ l) →
      (arrivals.map List.length).sum + (q.length + e + 1) - i ≤ fuel →
      (updateQueueLoop fuel q arrivals i e d).threw = false
      ∧ d ≤ (updateQueueLoop fuel q arrivals i e d).delivered
      ∧ (updateQueueLoop fuel q arrivals i e d).iters + d
          = q.length + e + (updateQueueLoop fuel q arrivals i e d).delivered := by
  induction fuel with
  | zero =>
    intro q arrivals i e d hie hei hq harr hfuel
    omega
  | succ fuel ih =>
    intro q arrivals i e d hie hei hq harr hfuel
    by_cases hcond : i < q.length + e
    · cases hqa : q ++ arrivals.headD [] with
      | nil =>
        exfalso
        have hlen0 := congrArg List.length hqa
        simp only [List.length_append, List.length_nil] at hlen0
        omega
      | cons f rest =>
        have hlen : q.length + (arrivals.headD []).length = rest.length + 1 := by
          have := congrArg List.length hqa
          simpa using this
        have hmem : FibreBeh.thrown ∉ q ++ arrivals.headD [] := by
          intro hmem
          rcases List.mem_append.mp hmem with h | h
          · exact hq h
          · cases arrivals with
            | nil => simp at h
            | cons a0 arest => exact harr a0 (List.mem_cons_self _ _) h
        have hrest : FibreBeh.thrown ∉ rest := by
          intro h
          exact hmem (by rw [hqa]; exact List.mem_cons_of_mem f h)
        have hf : f ≠ FibreBeh.thrown := by
          intro h
          apply hmem
          rw [hqa, h]
          exact List.mem_cons_self _ _
        have harr2 : ∀ l ∈ arrivals.tail, FibreBeh.thrown ∉ l :=
          fun l hl => harr l (List.mem_of_mem_tail hl)
        have hsum := sum_map_length_tail arrivals
        cases f with
        | thrown => exact absurd rfl hf
        | cancelled =>
          rw [updateQueueLoop_step_cancelled fuel q arrivals i e d rest hcond hqa]
          obtain ⟨h1, h2, h3⟩ := ih rest arrivals.tail (i + 1) (e + 1)
            (d + (arrivals.headD []).length)
            (by omega) (by omega) hrest harr2 (by omega)
          exact ⟨h1, by omega, by omega⟩
        | expire =>
          rw [updateQueueLoop_step_expire fuel q arrivals i e d rest hcond hqa]
          obtain ⟨h1, h2, h3⟩ := ih rest arrivals.tail (i + 1) (e + 1)
            (d + (arrivals.headD []).length)
            (by omega) (by omega) hrest harr2 (by omega)
          exact ⟨h1, by omega, by omega⟩
        | reschedAway =>
          rw [updateQueueLoop_step_reschedAway fuel q arrivals i e d rest hcond hqa]
          obtain ⟨h1, h2, h3⟩ := ih rest arrivals.tail (i + 1) (e + 1)
            (d + (arrivals.headD []).length)
            (by omega) (by omega) hrest harr2 (by omega)
          exact ⟨h1, by omega, by omega⟩
        | requeue =>
          rw [updateQueueLoop_step_requeue fuel q arrivals i e d rest hcond hqa]
          have hrest2 : FibreBeh.thrown ∉ rest ++ [FibreBeh.requeue] := by
            intro h
            rcases List.mem_append.mp h with h | h
            · exact hrest h
            · simp at h
          have hlen2 : (rest ++ [FibreBeh.requeue]).length = rest.length + 1 := by
            simp
          obtain ⟨h1, h2, h3⟩ := ih (rest ++ [FibreBeh.requeue]) arrivals.tail (i + 1) e
            (d + (arrivals.headD []).length)
            (by omega) (by omega) hrest2 harr2 (by omega)
          rw [hlen2] at h3
          exact ⟨h1, by omega, by omega⟩
    · rw [updateQueueLoop_exit fuel q arrivals i e d hcond]
      refine ⟨rfl, le_refl d, ?_⟩
      simp only []
      omega

end Morai

namespace Morai

/-- What a ThreadPool worker does with one fibre after `resume`,
`src/morai/ThreadPool.cpp` (`updateNextFibre`), lines 265-314. -/
inductive WorkerStep : Type
  | dropped
  | loggedAndDropped
  | requeued
  | retained
deriving DecidableEq

/-- Dispatch of `ThreadPool::updateNextFibre` on the `resume` mode,
`src/morai/ThreadPool.cpp` lines 265-314: `Expire`/`Moved` drop the fibre
(lines 266-270); `Exception` rethrows the stored exception inside the worker's
own try block, logs an error and drops the fibre — the exception never escapes
the worker (lines 272-294); otherwise the fibre is pushed back (`pushOk`) or
retained for an immediate re-resume when the queue is full (lines 308-315). -/
def ThreadPool.dispatchResume (mode : ResumeMode) (pushOk : Bool) : WorkerStep :=
  match mode with
  | ResumeMode.Expire => WorkerStep.dropped
  | ResumeMode.Moved => WorkerStep.dropped
  | ResumeMode.Exception => WorkerStep.loggedAndDropped
  | ResumeMode.Continue => if pushOk then WorkerStep.requeued else WorkerStep.retained
  | ResumeMode.Sleep => if pushOk then WorkerStep.requeued else WorkerStep.retained

/-- C4: evaluation at the failing input.  A Scheduler drain that pops a fibre
whose `resume` reports `Exception` lets the exception propagate out of
`update()` in Log mode just as in Rethrow mode — `updateQueue` always
rethrows and stores no mode (the `TODO` of `src/morai/Scheduler.cpp` line 170
notes the missing log option), contradicting the claim and the repository's
own test for Log mode.  The ThreadPool half of the claim does hold: a worker
always logs and drops on `Exception`, whether or not a requeue would have
succeeded. -/
theorem scheduler_exception_always_rethrows :
    (updateQueueDrain ExceptionHandling.Log [FibreBeh.thrown] []).threw = true
    ∧ (updateQueueDrain ExceptionHandling.Rethrow [FibreBeh.thrown] []).threw = true
    ∧ ThreadPool.dispatchResume ResumeMode.Exception true = WorkerStep.loggedAndDropped
    ∧ ThreadPool.dispatchResume ResumeMode.Exception false = WorkerStep.loggedAndDropped := by
  decide

/-- C5 counterexample: a queue holding one fibre that expires is drained in
exactly one iteration, while the claim's formula `initial_size +
expired_count` predicts two — the loop bound re-reads the shrunken current
size, so expirations are compensated rather than added. -/
theorem scheduler_drain_count_counterexample :
    (updateQueueDrain ExceptionHandling.Rethrow [FibreBeh.expire] []).iters = 1
    ∧ (updateQueueDrain ExceptionHandling.Rethrow [FibreBeh.expire] []).expired = 1
    ∧ [FibreBeh.expire].length
        + (updateQueueDrain ExceptionHandling.Rethrow [FibreBeh.expire] []).expired = 2
    ∧ (updateQueueDrain ExceptionHandling.Rethrow [FibreBeh.expire] []).iters ≠
        [FibreBeh.expire].length
          + (updateQueueDrain ExceptionHandling.Rethrow [FibreBeh.expire] []).expired := by
  decide

/-- C5 (amended): within a single `update()`, for each priority queue the
number of pop-and-process iterations performed by the drain equals the
queue's size at loop entry plus the number of fibres the move channel pumps
into the queue during the drain (for drains in which no fibre raises — an
exception aborts the drain by rethrow); in particular expirations never cause
the drain to process fewer than the initial number of entries.  This holds
for any (unused) exception-handling mode. -/
theorem scheduler_drain_count (mode : ExceptionHandling) (q : List FibreBeh)
    (arrivals : List (List FibreBeh))
    (hq : FibreBeh.thrown ∉ q) (harr : ∀ l ∈ arrivals, FibreBeh.thrown ∉ l) :
    (updateQueueDrain mode q arrivals).threw = false
    ∧ (updateQueueDrain mode q arrivals).iters
        = q.length + (updateQueueDrain mode q arrivals).delivered
    ∧ q.length ≤ (updateQueueDrain mode q arrivals).iters := by
  obtain ⟨h1, h2, h3⟩ := updateQueueLoop_spec
    ((arrivals.map List.length).sum + q.length + 1) q arrivals 0 0 0
    (by omega) (by omega) hq harr (by omega)
  simp only [updateQueueDrain]
  exact ⟨h1, by omega, by omega⟩

/-- Witness for `scheduler_drain_count`: a queue with one requeueing and one
expiring fibre, and one move-channel arrival during the first iteration; the
drain performs 2 + 1 iterations. -/
theorem scheduler_drain_count_witness :
    (FibreBeh.thrown ∉ [FibreBeh.requeue, FibreBeh.expire])
    ∧ (∀ l ∈ [[FibreBeh.expire]], FibreBeh.thrown ∉ l)
    ∧ ((updateQueueDrain ExceptionHandling.Log [FibreBeh.requeue, FibreBeh.expire]
          [[FibreBeh.expire]]).threw = false
       ∧ (updateQueueDrain ExceptionHandling.Log [FibreBeh.requeue, FibreBeh.expire]
            [[FibreBeh.expire]]).iters
          = [FibreBeh.requeue, FibreBeh.expire].length
            + (updateQueueDrain ExceptionHandling.Log [FibreBeh.requeue, FibreBeh.expire]
                [[FibreBeh.expire]]).delivered
       ∧ [FibreBeh.requeue, FibreBeh.expire].length
          ≤ (updateQueueDrain ExceptionHandling.Log [FibreBeh.requeue, FibreBeh.expire]
              [[FibreBeh.expire]]).iters) :=
  ⟨by decide, by decide,
   scheduler_drain_count ExceptionHandling.Log [FibreBeh.requeue, FibreBeh.expire]
     [[FibreBeh.expire]] (by decide) (by decide)⟩

end Morai

namespace Morai

/-- Embedding of the 32-bit `nextPowerOfTwo`, `src/morai/Common.hpp` lines
121-134 (bit-smearing followed by increment).  Inputs in the u32 range give
the same result as the C++ version. -/
def nextPowerOfTwo (value : ℕ) : ℕ :=
  if value ≤ 1 then 1
  else
    let v1 := value ||| (value >>> 1)
    let v2 := v1 ||| (v1 >>> 2)
    let v3 := v2 ||| (v2 >>> 4)
    let v4 := v3 ||| (v3 >>> 8)
    let v5 := v4 ||| (v4 >>> 16)
    v5 + 1

/-- Embedding of `FibreQueue`, `src/morai/FibreQueue.hpp` lines 23-94: a ring
buffer with head/tail indices over a buffer of slots.  A slot holds `some v`
for a live fibre and `none` for an empty/invalid fibre (a moved-from slot or a
cancelled-in-place placeholder), mirroring `Fibre::valid()`.  The C++ masks
indices with `capacity - 1`; the embedding uses `% capacity`, which coincides
for the power-of-two capacities established by the constructor and preserved
by doubling (`grow`). -/
structure FibreQueue (V : Type) where
  head : ℕ := 0
  tail : ℕ := 0
  buffer : List (Option V) := []
  priority : Int := 0
deriving DecidableEq

namespace FibreQueue

variable {V : Type}

/-- Constructor, `src/morai/FibreQueue.cpp` lines 7-13: capacity is clamped to
at least 16 and rounded up to a power of two; all slots start empty. -/
def init (priority : Int) (capacity : ℕ) : FibreQueue V :=
  { head := 0, tail := 0,
    buffer := List.replicate (nextPowerOfTwo (max capacity 16)) none,
    priority := priority }

/-- `nextIndex`, `src/morai/FibreQueue.hpp` lines 78-81. -/
def nextIndex (q : FibreQueue V) (i : ℕ) : ℕ := (i + 1) % q.buffer.length

/-- `priorIndex`, `src/morai/FibreQueue.hpp` lines 83-86 (the uint32
wrap-around of `index - 1` masked to the capacity equals adding
`capacity - 1` modulo the capacity). -/
def priorIndex (q : FibreQueue V) (i : ℕ) : ℕ :=
  (i + q.buffer.length - 1) % q.buffer.length

/-- `size`, `src/morai/FibreQueue.hpp` lines 42-49. -/
def size (q : FibreQueue V) : ℕ :=
  if q.tail ≤ q.head then q.head - q.tail
  else q.buffer.length + q.head - q.tail

/-- `full`, `src/morai/FibreQueue.hpp` line 76. -/
def full (q : FibreQueue V) : Bool := decide (q.nextIndex q.head = q.tail)

/-- The queue contents in FIFO order (front first): the slots from `tail`
(inclusive) to `head` (exclusive), walking the ring. -/
def toList (q : FibreQueue V) : List (Option V) :=
  (List.range q.size).map (fun k => q.buffer.getD ((q.tail + k) % q.buffer.length) none)

/-- `grow`, `src/morai/FibreQueue.cpp` lines 74-87: pop every entry in FIFO
order into the front of a buffer of twice the size, then reset the indices
(`_head` becomes the old size, `_tail` becomes 0). -/
def grow (q : FibreQueue V) : FibreQueue V :=
  { head := q.size, tail := 0,
    buffer := q.toList ++ List.replicate (2 * q.buffer.length - q.size) none,
    priority := q.priority }

/-- `push`, `src/morai/FibreQueue.cpp` lines 40-60: grow when full, then
insert at the head (`Back`) or just before the tail (`Front`). -/
def push (q : FibreQueue V) (v : V) (pos : PriorityPosition := PriorityPosition.Back) :
    FibreQueue V :=
  let q := if q.full then q.grow else q
  match pos with
  | PriorityPosition.Back =>
    { q with buffer := q.buffer.set q.head (some v), head := q.nextIndex q.head }
  | PriorityPosition.Front =>
    let insert_index := q.priorIndex q.tail
    { q with buffer := q.buffer.set insert_index (some v), tail := insert_index }

/-- `pop`, `src/morai/FibreQueue.cpp` lines 62-72: an empty queue returns an
invalid fibre (outer `none`); otherwise the front slot is moved out (leaving
an invalid fibre behind, modelled by setting the slot to `none`) and the tail
advances.  The inner `Option V` is the popped slot itself, `none` when it was
a cancelled-in-place placeholder. -/
def pop (q : FibreQueue V) : Option (Option V) × FibreQueue V :=
  if q.head = q.tail then (none, q)
  else
    (some (q.buffer.getD q.tail none),
     { q with buffer := q.buffer.set q.tail none, tail := q.nextIndex q.tail })

/-- `cancel`, `src/morai/FibreQueue.cpp` lines 90-106: `std::ranges::find_if`
scans the whole buffer (from physical index 0) for a fibre with the given id
and swaps it in place with a default (invalid) `Fibre`; the swapped-out fibre
is destroyed when the local `replace` goes out of scope.  Moved-from and
cancelled slots hold invalid fibres whose id never equals a valid id, so only
`some id` slots can match. -/
def cancel [DecidableEq V] (q : FibreQueue V) (id : V) : Bool × FibreQueue V :=
  match q.buffer.findIdx? (fun s => s = some id) with
  | some j => (true, { q with buffer := q.buffer.set j none })
  | none => (false, q)

/-- Invariant of the ring buffer: a nonempty buffer, indices within range, at
least one spare slot (the C++ `full` check guarantees `size < capacity`), and
every slot outside the live window holding an empty fibre. -/
def Inv (q : FibreQueue V) : Prop :=
  0 < q.buffer.length ∧ q.head < q.buffer.length ∧ q.tail < q.buffer.length
  ∧ q.size < q.buffer.length
  ∧ ∀ j, j < q.buffer.length → (∀ k, k < q.size → j ≠ (q.tail + k) % q.buffer.length) →
      q.buffer.getD j none = none

theorem toList_length (q : FibreQueue V) : q.toList.length = q.size := by
  simp [toList]

end FibreQueue

end Morai

namespace Morai

namespace FibreQueue

variable {V : Type}

theorem getD_replicate (n j : ℕ) :
    (List.replicate n (none : Option V)).getD j none = none := by
  simp only [List.getD, List.get?_eq_getElem?, List.getElem?_replicate]
  split <;> rfl

theorem nextPowerOfTwo_pos (value : ℕ) : 0 < nextPowerOfTwo value := by
  unfold nextPowerOfTwo
  split
  · omega
  · exact Nat.succ_pos _

theorem mod_add_inj (cap t k1 k2 : ℕ) (h1 : k1 < cap) (h2 : k2 < cap)
    (h : (t + k1) % cap = (t + k2) % cap) : k1 = k2 := by
  have hm : k1 ≡ k2 [MOD cap] :=
    Nat.ModEq.add_left_cancel (Nat.ModEq.refl t) h
  have := hm.eq_of_lt_of_lt h1 h2
  exact this

theorem getD_eq_get (l : List (Option V)) (n : ℕ) (h : n < l.length) :
    l.getD n none = l.get ⟨n, h⟩ := by
  simp [List.getD, List.getElem?_eq_getElem h, List.get_eq_getElem]

theorem getD_append_left (l1 l2 : List (Option V)) (n : ℕ) (h : n < l1.length) :
    (l1 ++ l2).getD n none = l1.getD n none := by
  simp [List.getD, List.getElem?_append_left h]

theorem getD_append_right (l1 l2 : List (Option V)) (n : ℕ) (h : l1.length ≤ n) :
    (l1 ++ l2).getD n none = l2.getD (n - l1.length) none := by
  simp [List.getD, List.getElem?_append_right h]

theorem getD_set_self (l : List (Option V)) (j : ℕ) (v : Option V) (h : j < l.length) :
    (l.set j v).getD j none = v := by
  simp [List.getD, List.getElem?_set_self, h]

theorem getD_set_ne (l : List (Option V)) (j i : ℕ) (v : Option V) (h : j ≠ i) :
    (l.set j v).getD i none = l.getD i none := by
  simp [List.getD, List.getElem?_set_ne h]

theorem list_eq_of_getD (l1 l2 : List (Option V)) (hlen : l1.length = l2.length)
    (h : ∀ k, k < l1.length → l1.getD k none = l2.getD k none) : l1 = l2 := by
  apply List.ext_getElem hlen
  intro i h1 h2
  have h3 := h i h1
  simpa [List.getD, List.getElem?_eq_getElem, h1, h2] using h3

theorem findIdx?_cons_eq (p : Option V → Bool) (a : Option V) (l : List (Option V)) :
    (a :: l).findIdx? p = if p a then some 0 else (l.findIdx? p).map (· + 1) := by
  rw [List.findIdx?_cons]
  split <;> simp [*]

theorem findIdx?_some_spec (p : Option V → Bool) (l : List (Option V)) :
    ∀ j, l.findIdx? p = some j → j < l.length ∧ p (l.getD j none) = true := by
  induction l with
  | nil => intro j h; simp [List.findIdx?_nil] at h
  | cons a rest ih =>
    intro j h
    rw [findIdx?_cons_eq] at h
    by_cases hpa : p a
    · rw [if_pos hpa] at h
      obtain rfl : 0 = j := Option.some_injective _ h
      exact ⟨Nat.succ_pos _, hpa⟩
    · rw [if_neg hpa] at h
      cases hrest : rest.findIdx? p with
      | none => rw [hrest] at h; simp at h
      | some j2 =>
        rw [hrest] at h
        obtain rfl : j2 + 1 = j := Option.some_injective _ (by simpa using h)
        obtain ⟨hlt, hp⟩ := ih j2 hrest
        exact ⟨Nat.succ_lt_succ hlt, hp⟩

theorem findIdx?_none_spec (p : Option V → Bool) (l : List (Option V))
    (h : l.findIdx? p = none) : ∀ x ∈ l, p x = false := by
  induction l with
  | nil => intro x hx; simp at hx
  | cons a rest ih =>
    rw [findIdx?_cons_eq] at h
    by_cases hpa : p a
    · rw [if_pos hpa] at h; simp at h
    · rw [if_neg hpa] at h
      intro x hx
      rcases List.mem_cons.mp hx with rfl | hx2
      · simpa using hpa
      · cases hrest : rest.findIdx? p with
        | none => exact ih hrest x hx2
        | some j => rw [hrest] at h; simp at h

theorem size_spec (q : FibreQueue V) (hh : q.head < q.buffer.length)
    (ht : q.tail < q.buffer.length) :
    (q.tail + q.size) % q.buffer.length = q.head := by
  unfold size
  by_cases hth : q.tail ≤ q.head
  · rw [if_pos hth, show q.tail + (q.head - q.tail) = q.head from by omega,
      Nat.mod_eq_of_lt hh]
  · rw [if_neg hth,
      show q.tail + (q.buffer.length + q.head - q.tail) = q.buffer.length + q.head from by
        omega,
      Nat.add_mod_left, Nat.mod_eq_of_lt hh]

theorem toList_getD (q : FibreQueue V) (k : ℕ) (hk : k < q.size) :
    q.toList.getD k none = q.buffer.getD ((q.tail + k) % q.buffer.length) none := by
  unfold toList
  simp only [List.getD, List.get?_map, List.get?_range hk]
  rfl

end FibreQueue

end Morai

namespace Morai

namespace FibreQueue

variable {V : Type}

theorem init_refines (prio : Int) (cap : ℕ) :
    Inv (init prio cap : FibreQueue V) ∧ (init prio cap : FibreQueue V).toList = [] := by
  have hN : 0 < nextPowerOfTwo (max cap 16) := nextPowerOfTwo_pos _
  have hsize : (init prio cap : FibreQueue V).size = 0 := by
    simp [init, size]
  refine ⟨⟨?_, ?_, ?_, ?_, ?_⟩, ?_⟩
  · simpa [init] using hN
  · simpa [init] using hN
  · simpa [init] using hN
  · simpa [init, hsize] using hN
  · intro j hj hk
    simpa [init] using getD_replicate (nextPowerOfTwo (max cap 16)) j
  · simp [toList, hsize]

theorem grow_buffer_length (q : FibreQueue V) (hs : q.size < q.buffer.length) :
    q.grow.buffer.length = 2 * q.buffer.length := by
  simp [grow, toList_length]
  omega

theorem grow_size (q : FibreQueue V) : q.grow.size = q.size := by
  simp [grow, size]

theorem grow_refines (q : FibreQueue V) (h : Inv q) :
    Inv q.grow ∧ q.grow.toList = q.toList ∧ q.grow.full = false := by
  obtain ⟨hlen, hh, ht, hs, hdead⟩ := h
  have hlen2 := grow_buffer_length q hs
  have hsz := grow_size q
  have hs2 : q.size < 2 * q.buffer.length := by omega
  have hgetD : ∀ k, k < q.size → q.grow.buffer.getD k none = q.toList.getD k none := by
    intro k hk
    show (q.toList ++ List.replicate (2 * q.buffer.length - q.size) none).getD k none
        = q.toList.getD k none
    exact getD_append_left _ _ k (by rw [toList_length]; exact hk)
  refine ⟨⟨?_, ?_, ?_, ?_, ?_⟩, ?_, ?_⟩
  · omega
  · show q.size < q.grow.buffer.length
    omega
  · show (0 : ℕ) < q.grow.buffer.length
    omega
  · omega
  · intro j hj hk
    rw [hlen2] at hj
    by_cases hjs : j < q.size
    · exfalso
      exact hk j (by rw [hsz]; exact hjs)
        (by show j = (0 + j) % (q.grow.buffer.length); rw [hlen2, Nat.zero_add,
              Nat.mod_eq_of_lt hj])
    · show (q.toList ++ List.replicate (2 * q.buffer.length - q.size) none).getD j none = none
      rw [getD_append_right _ _ j (by rw [toList_length]; omega)]
      rw [toList_length]
      exact getD_replicate _ _
  · apply list_eq_of_getD
    · rw [toList_length, toList_length, hsz]
    · intro k hk
      rw [toList_length, hsz] at hk
      rw [toList_getD q.grow k (by rw [hsz]; exact hk)]
      show q.grow.buffer.getD ((0 + k) % q.grow.buffer.length) none = q.toList.getD k none
      rw [Nat.zero_add, hlen2, Nat.mod_eq_of_lt (by omega)]
      exact hgetD k hk
  · show decide ((q.size + 1) % q.grow.buffer.length = 0) = false
    rw [hlen2, Nat.mod_eq_of_lt (by omega)]
    simp

end FibreQueue

end Morai

namespace Morai

namespace FibreQueue

variable {V : Type}

theorem push_back_refines (q : FibreQueue V) (v : V) (h : Inv q) (hf : q.full = false) :
    Inv (q.push v PriorityPosition.Back)
    ∧ (q.push v PriorityPosition.Back).toList = q.toList ++ [some v] := by
  obtain ⟨hlen, hh, ht, hs, hdead⟩ := h
  have hpush : q.push v PriorityPosition.Back =
      { q with buffer := q.buffer.set q.head (some v), head := q.nextIndex q.head } := by
    simp [push, hf]
  have hfne : (q.head + 1) % q.buffer.length ≠ q.tail := by
    simpa [full, nextIndex] using hf
  have hls : (q.buffer.set q.head (some v)).length = q.buffer.length := by simp
  have hmod : (q.head + 1) % q.buffer.length < q.buffer.length := Nat.mod_lt _ hlen
  have hpos_head : (q.tail + q.size) % q.buffer.length = q.head := size_spec q hh ht
  have hsz1 : q.size + 1 < q.buffer.length := by
    rcases Nat.lt_or_ge (q.size + 1) q.buffer.length with h1 | h1
    · exact h1
    · exfalso
      have hlen_eq : q.size + 1 = q.buffer.length := by omega
      apply hfne
      calc (q.head + 1) % q.buffer.length
          = ((q.tail + q.size) % q.buffer.length + 1) % q.buffer.length := by
            rw [hpos_head]
        _ = (q.tail + q.size + 1) % q.buffer.length := Nat.mod_add_mod _ _ _
        _ = (q.tail + q.buffer.length) % q.buffer.length := by rw [Nat.add_assoc, hlen_eq]
        _ = q.tail % q.buffer.length := Nat.add_mod_right _ _
        _ = q.tail := Nat.mod_eq_of_lt ht
  have hsize' : ({ q with
      buffer := q.buffer.set q.head (some v),
      head := q.nextIndex q.head } : FibreQueue V).size = q.size + 1 := by
    show (if q.tail ≤ q.nextIndex q.head
          then q.nextIndex q.head - q.tail
          else (q.buffer.set q.head (some v)).length + q.nextIndex q.head - q.tail)
        = q.size + 1
    rw [hls]
    unfold nextIndex
    unfold size at hs hpos_head ⊢
    by_cases hwrap : q.head + 1 = q.buffer.length
    · have hzero : (q.head + 1) % q.buffer.length = 0 := by rw [hwrap, Nat.mod_self]
      have htpos : 0 < q.tail := by
        rcases Nat.eq_zero_or_pos q.tail with h0 | h0
        · exact absurd (by rw [hzero, h0]) hfne
        · exact h0
      rw [hzero, if_neg (by omega)]
      rw [if_pos (by omega : q.tail ≤ q.head)] at hs ⊢
      omega
    · have hlt : q.head + 1 < q.buffer.length := by omega
      rw [Nat.mod_eq_of_lt hlt]
      rw [Nat.mod_eq_of_lt hlt] at hfne
      by_cases hth : q.tail ≤ q.head
      · rw [if_pos (by omega), if_pos hth]
        omega
      · rw [if_neg hth] at hs ⊢
        rw [if_neg (by omega)]
        omega
  -- positions of old live entries differ from the write position (the old head)
  have hne_head : ∀ k, k < q.size → (q.tail + k) % q.buffer.length ≠ q.head := by
    intro k hk heq
    rw [← hpos_head] at heq
    exact absurd (mod_add_inj q.buffer.length q.tail k q.size (by omega) hs heq) (by omega)
  rw [hpush]
  constructor
  · refine ⟨?_, ?_, ?_, ?_, ?_⟩
    · show 0 < (q.buffer.set q.head (some v)).length
      rw [hls]; exact hlen
    · show q.nextIndex q.head < (q.buffer.set q.head (some v)).length
      rw [hls]; exact hmod
    · show q.tail < (q.buffer.set q.head (some v)).length
      rw [hls]; exact ht
    · rw [hsize']
      show q.size + 1 < (q.buffer.set q.head (some v)).length
      rw [hls]; exact hsz1
    · intro j hj hk
      rw [hsize'] at hk
      rw [hls] at hj
      have hjh : j ≠ q.head := by
        intro heq
        exact hk q.size (by omega) (by
          show j = (q.tail + q.size) % (q.buffer.set q.head (some v)).length
          rw [hls, hpos_head, heq])
      have hjold : ∀ k, k < q.size → j ≠ (q.tail + k) % q.buffer.length := by
        intro k hkk
        have := hk k (by omega)
        rw [hls] at this
        exact this
      show (q.buffer.set q.head (some v)).getD j none = none
      rw [getD_set_ne _ _ _ _ (fun heq => hjh heq.symm)]
      exact hdead j hj hjold
  · apply list_eq_of_getD
    · rw [toList_length, hsize']
      simp [toList_length]
    · intro k hk
      rw [toList_length, hsize'] at hk
      rw [toList_getD _ k (by rw [hsize']; exact hk)]
      show (q.buffer.set q.head (some v)).getD
          ((q.tail + k) % (q.buffer.set q.head (some v)).length) none
        = (q.toList ++ [some v]).getD k none
      rw [hls]
      by_cases hks : k < q.size
      · rw [getD_set_ne _ _ _ _ (fun heq => hne_head k hks heq.symm)]
        rw [getD_append_left _ _ k (by rw [toList_length]; exact hks)]
        exact (toList_getD q k hks).symm
      · have hkeq : k = q.size := by omega
        subst hkeq
        rw [hpos_head, getD_set_self _ _ _ hh]
        rw [getD_append_right _ _ q.size (by rw [toList_length])]
        rw [toList_length]
        simp

end FibreQueue

end Morai

namespace Morai

namespace FibreQueue

variable {V : Type}

theorem push_front_refines (q : FibreQueue V) (v : V) (h : Inv q) (hf : q.full = false) :
    Inv (q.push v PriorityPosition.Front)
    ∧ (q.push v PriorityPosition.Front).toList = some v :: q.toList := by
  obtain ⟨hlen, hh, ht, hs, hdead⟩ := h
  have hpush : q.push v PriorityPosition.Front =
      { q with buffer := q.buffer.set (q.priorIndex q.tail) (some v),
               tail := q.priorIndex q.tail } := by
    simp [push, hf]
  have hfne : (q.head + 1) % q.buffer.length ≠ q.tail := by
    simpa [full, nextIndex] using hf
  have hls : (q.buffer.set (q.priorIndex q.tail) (some v)).length = q.buffer.length := by simp
  have hj : q.priorIndex q.tail < q.buffer.length := Nat.mod_lt _ hlen
  have hjcases : (q.tail = 0 ∧ q.priorIndex q.tail = q.buffer.length - 1)
      ∨ (0 < q.tail ∧ q.priorIndex q.tail = q.tail - 1) := by
    rcases Nat.eq_zero_or_pos q.tail with h0 | h0
    · left
      refine ⟨h0, ?_⟩
      show (q.tail + q.buffer.length - 1) % q.buffer.length = q.buffer.length - 1
      rw [h0, Nat.zero_add, Nat.mod_eq_of_lt (by omega)]
    · right
      refine ⟨h0, ?_⟩
      show (q.tail + q.buffer.length - 1) % q.buffer.length = q.tail - 1
      rw [show q.tail + q.buffer.length - 1 = (q.tail - 1) + q.buffer.length from by omega,
        Nat.add_mod_right, Nat.mod_eq_of_lt (by omega)]
  -- positions of old live entries avoid the insertion slot
  have hne : ∀ k, k < q.size → (q.tail + k) % q.buffer.length ≠ q.priorIndex q.tail := by
    intro k hk heq
    have hrw : q.priorIndex q.tail = (q.tail + (q.buffer.length - 1)) % q.buffer.length := by
      show (q.tail + q.buffer.length - 1) % q.buffer.length = _
      rw [show q.tail + q.buffer.length - 1 = q.tail + (q.buffer.length - 1) from by omega]
    rw [hrw] at heq
    have := mod_add_inj q.buffer.length q.tail k (q.buffer.length - 1) (by omega) (by omega) heq
    omega
  -- the new window positions shift the old ones by one
  have hshift : ∀ k, 1 ≤ k → (q.priorIndex q.tail + k) % q.buffer.length
      = (q.tail + (k - 1)) % q.buffer.length := by
    intro k hk1
    show ((q.tail + q.buffer.length - 1) % q.buffer.length + k) % q.buffer.length = _
    rw [Nat.mod_add_mod]
    rw [show q.tail + q.buffer.length - 1 + k = q.tail + (k - 1) + q.buffer.length from by
      omega]
    rw [Nat.add_mod_right]
  have hsize' : ({ q with
      buffer := q.buffer.set (q.priorIndex q.tail) (some v),
      tail := q.priorIndex q.tail } : FibreQueue V).size = q.size + 1 := by
    show (if q.priorIndex q.tail ≤ q.head
          then q.head - q.priorIndex q.tail
          else (q.buffer.set (q.priorIndex q.tail) (some v)).length + q.head
            - q.priorIndex q.tail)
        = q.size + 1
    rw [hls]
    unfold size at hs ⊢
    rcases hjcases with ⟨h0, hjeq⟩ | ⟨h0, hjeq⟩
    · -- tail was 0; the insertion wraps to the last slot
      have hhead : q.head + 1 < q.buffer.length := by
        rcases Nat.lt_or_ge (q.head + 1) q.buffer.length with h1 | h1
        · exact h1
        · exfalso
          apply hfne
          rw [show q.head + 1 = q.buffer.length from by omega, Nat.mod_self, h0]
      rw [hjeq, if_neg (by omega)]
      rw [h0, if_pos (by omega)] at hs ⊢
      omega
    · rw [hjeq]
      by_cases hth : q.tail ≤ q.head
      · rw [if_pos (by omega)]
        rw [if_pos hth] at hs ⊢
        omega
      · have hlt : q.head + 1 < q.tail := by
          rcases Nat.lt_or_ge (q.head + 1) q.tail with h1 | h1
          · exact h1
          · exfalso
            apply hfne
            have heq : q.head + 1 = q.tail := by omega
            rw [heq]
            exact Nat.mod_eq_of_lt ht
        rw [if_neg (by omega)]
        rw [if_neg hth] at hs ⊢
        omega
  rw [hpush]
  constructor
  · refine ⟨?_, ?_, ?_, ?_, ?_⟩
    · show 0 < (q.buffer.set (q.priorIndex q.tail) (some v)).length
      rw [hls]; exact hlen
    · show q.head < (q.buffer.set (q.priorIndex q.tail) (some v)).length
      rw [hls]; exact hh
    · show q.priorIndex q.tail < (q.buffer.set (q.priorIndex q.tail) (some v)).length
      rw [hls]; exact hj
    · rw [hsize']
      show q.size + 1 < (q.buffer.set (q.priorIndex q.tail) (some v)).length
      rw [hls]
      -- one spare slot remains because the queue was not full
      rcases Nat.lt_or_ge (q.size + 1) q.buffer.length with h1 | h1
      · exact h1
      · exfalso
        apply hfne
        have hpos_head := size_spec q hh ht
        have hlen_eq : q.size + 1 = q.buffer.length := by omega
        calc (q.head + 1) % q.buffer.length
            = ((q.tail + q.size) % q.buffer.length + 1) % q.buffer.length := by
              rw [hpos_head]
          _ = (q.tail + q.size + 1) % q.buffer.length := Nat.mod_add_mod _ _ _
          _ = (q.tail + q.buffer.length) % q.buffer.length := by
              rw [Nat.add_assoc, hlen_eq]
          _ = q.tail % q.buffer.length := Nat.add_mod_right _ _
          _ = q.tail := Nat.mod_eq_of_lt ht
    · intro j2 hj2 hk
      rw [hsize'] at hk
      rw [hls] at hj2
      have hj2j : j2 ≠ q.priorIndex q.tail := by
        intro heq
        exact hk 0 (by omega) (by
          show j2 = (q.priorIndex q.tail + 0) % (q.buffer.set (q.priorIndex q.tail)
            (some v)).length
          rw [hls, Nat.add_zero, Nat.mod_eq_of_lt hj, heq])
      have hj2old : ∀ k, k < q.size → j2 ≠ (q.tail + k) % q.buffer.length := by
        intro k hkk heq
        apply hk (k + 1) (by omega)
        show j2 = (q.priorIndex q.tail + (k + 1)) % (q.buffer.set (q.priorIndex q.tail)
          (some v)).length
        rw [hls, hshift (k + 1) (by omega)]
        simpa using heq
      show (q.buffer.set (q.priorIndex q.tail) (some v)).getD j2 none = none
      rw [getD_set_ne _ _ _ _ (fun heq => hj2j heq.symm)]
      exact hdead j2 hj2 hj2old
  · apply list_eq_of_getD
    · rw [toList_length, hsize']
      simp [toList_length]
    · intro k hk
      rw [toList_length, hsize'] at hk
      rw [toList_getD _ k (by rw [hsize']; exact hk)]
      show (q.buffer.set (q.priorIndex q.tail) (some v)).getD
          ((q.priorIndex q.tail + k) % (q.buffer.set (q.priorIndex q.tail) (some v)).length)
          none
        = (some v :: q.toList).getD k none
      rw [hls]
      cases k with
      | zero =>
        rw [Nat.add_zero, Nat.mod_eq_of_lt hj, getD_set_self _ _ _ hj]
        rfl
      | succ k2 =>
        rw [hshift (k2 + 1) (by omega)]
        simp only [Nat.add_sub_cancel]
        have hk2 : k2 < q.size := by omega
        rw [getD_set_ne _ _ _ _ (fun heq => hne k2 hk2 heq.symm)]
        show q.buffer.getD ((q.tail + k2) % q.buffer.length) none = q.toList.getD k2 none
        exact (toList_getD q k2 hk2).symm

end FibreQueue

end Morai

namespace Morai

namespace FibreQueue

variable {V : Type}

theorem size_zero_iff (q : FibreQueue V) (ht : q.tail < q.buffer.length) :
    q.size = 0 ↔ q.head = q.tail := by
  unfold size
  by_cases hth : q.tail ≤ q.head
  · rw [if_pos hth]
    omega
  · rw [if_neg hth]
    omega

theorem pop_empty (q : FibreQueue V) (he : q.head = q.tail) : q.pop = (none, q) := by
  simp [pop, he]

theorem pop_refines (q : FibreQueue V) (a : Option V) (rest : List (Option V))
    (h : Inv q) (hne : q.toList = a :: rest) :
    (q.pop).1 = some a ∧ Inv (q.pop).2 ∧ (q.pop).2.toList = rest := by
  obtain ⟨hlen, hh, ht, hs, hdead⟩ := h
  have hsz : q.size = rest.length + 1 := by
    have := toList_length q
    rw [hne] at this
    simpa using this.symm
  have hnz : q.head ≠ q.tail := by
    intro he
    have h0 : q.size = 0 := (size_zero_iff q ht).mpr he
    omega
  have htt : (q.tail + 0) % q.buffer.length = q.tail := by
    rw [Nat.add_zero, Nat.mod_eq_of_lt ht]
  have ha : q.buffer.getD q.tail none = a := by
    have := toList_getD q 0 (by omega)
    rw [hne, htt] at this
    exact this.symm
  have hpop : q.pop = (some (q.buffer.getD q.tail none),
      { q with buffer := q.buffer.set q.tail none, tail := q.nextIndex q.tail }) := by
    simp [pop, hnz]
  have hls : (q.buffer.set q.tail none).length = q.buffer.length := by simp
  have hmod : (q.tail + 1) % q.buffer.length < q.buffer.length := Nat.mod_lt _ hlen
  have hshift : ∀ k, (q.nextIndex q.tail + k) % q.buffer.length
      = (q.tail + (k + 1)) % q.buffer.length := by
    intro k
    show ((q.tail + 1) % q.buffer.length + k) % q.buffer.length = _
    rw [Nat.mod_add_mod, Nat.add_assoc, Nat.add_comm 1 k]
  have hne_tail : ∀ k, k < q.size - 1 →
      (q.tail + (k + 1)) % q.buffer.length ≠ q.tail := by
    intro k hk heq
    have := mod_add_inj q.buffer.length q.tail (k + 1) 0 (by omega) (by omega)
      (by rw [htt]; exact heq)
    omega
  have hsize' : ({ q with
      buffer := q.buffer.set q.tail none,
      tail := q.nextIndex q.tail } : FibreQueue V).size = q.size - 1 := by
    show (if q.nextIndex q.tail ≤ q.head
          then q.head - q.nextIndex q.tail
          else (q.buffer.set q.tail none).length + q.head - q.nextIndex q.tail)
        = q.size - 1
    rw [hls]
    unfold nextIndex
    unfold size at hs hsz ⊢
    by_cases hwrap : q.tail + 1 = q.buffer.length
    · have hzero : (q.tail + 1) % q.buffer.length = 0 := by rw [hwrap, Nat.mod_self]
      have hth : ¬q.tail ≤ q.head := by omega
      rw [hzero, if_pos (by omega)]
      rw [if_neg hth] at hs hsz ⊢
      omega
    · have hlt : q.tail + 1 < q.buffer.length := by omega
      rw [Nat.mod_eq_of_lt hlt]
      by_cases hth : q.tail ≤ q.head
      · have hth2 : q.tail < q.head := by omega
        rw [if_pos (by omega)]
        rw [if_pos hth] at hs hsz ⊢
        omega
      · rw [if_neg (by omega)]
        rw [if_neg hth] at hs hsz ⊢
        omega
  rw [hpop]
  refine ⟨by rw [ha], ⟨?_, ?_, ?_, ?_, ?_⟩, ?_⟩
  · show 0 < (q.buffer.set q.tail none).length
    rw [hls]; exact hlen
  · show q.head < (q.buffer.set q.tail none).length
    rw [hls]; exact hh
  · show q.nextIndex q.tail < (q.buffer.set q.tail none).length
    rw [hls]; exact hmod
  · rw [hsize']
    show q.size - 1 < (q.buffer.set q.tail none).length
    rw [hls]; omega
  · intro j hj hk
    rw [hsize'] at hk
    rw [hls] at hj
    by_cases hjt : j = q.tail
    · subst hjt
      show (q.buffer.set q.tail none).getD q.tail none = none
      exact getD_set_self _ _ _ (by omega)
    · have hjold : ∀ k, k < q.size → j ≠ (q.tail + k) % q.buffer.length := by
        intro k hkk heq
        cases k with
        | zero => exact hjt (by rw [heq, htt])
        | succ k2 =>
          apply hk k2 (by omega)
          show j = (q.nextIndex q.tail + k2) % (q.buffer.set q.tail none).length
          rw [hls, hshift k2]
          exact heq
      show (q.buffer.set q.tail none).getD j none = none
      rw [getD_set_ne _ _ _ _ (fun heq => hjt heq.symm)]
      exact hdead j hj hjold
  · apply list_eq_of_getD
    · rw [toList_length, hsize']
      omega
    · intro k hk
      rw [toList_length, hsize'] at hk
      rw [toList_getD _ k (by rw [hsize']; exact hk)]
      show (q.buffer.set q.tail none).getD
          ((q.nextIndex q.tail + k) % (q.buffer.set q.tail none).length) none
        = rest.getD k none
      rw [hls, hshift k]
      rw [getD_set_ne _ _ _ _ (fun heq => (hne_tail k (by omega)) heq.symm)]
      have := toList_getD q (k + 1) (by omega)
      rw [hne] at this
      exact this.symm

end FibreQueue

end Morai

namespace Morai

/-- Abstract (list-level) effect of `FibreQueue::push`: `Back` appends to the
queue, `Front` prepends. -/
def modelPush {V : Type} (l : List (Option V)) (v : V) (pos : PriorityPosition) :
    List (Option V) :=
  match pos with
  | PriorityPosition.Back => l ++ [some v]
  | PriorityPosition.Front => some v :: l

/-- Abstract effect of `FibreQueue::pop`: take the front entry; an empty queue
returns an invalid fibre (`none`). -/
def modelPop {V : Type} (l : List (Option V)) : Option (Option V) × List (Option V) :=
  match l with
  | [] => (none, [])
  | a :: rest => (some a, rest)

/-- Abstract effect of `FibreQueue::cancel`: replace the (unique) entry
holding the given id with an empty placeholder, in place. -/
def modelCancel {V : Type} [DecidableEq V] (l : List (Option V)) (id : V) :
    List (Option V) :=
  match l.findIdx? (fun s => decide (s = some id)) with
  | some j => l.set j none
  | none => l

/-- The live entries of the queue hold pairwise distinct fibres.  Fibre ids
are globally unique (`Fibre::nextId`), so this holds for every queue the
scheduler builds. -/
def NodupSomes {V : Type} (l : List (Option V)) : Prop :=
  (l.filterMap (fun x => x)).Nodup

namespace FibreQueue

variable {V : Type}

theorem mem_filterMap_of_getD (l : List (Option V)) (k : ℕ) (w : V)
    (hk : k < l.length) (h : l.getD k none = some w) :
    w ∈ l.filterMap (fun x => x) := by
  rw [getD_eq_get l k hk] at h
  have hmem : some w ∈ l := h ▸ List.get_mem l k hk
  exact List.mem_filterMap.mpr ⟨some w, hmem, rfl⟩

theorem nodupSomes_tail (x : Option V) (rest : List (Option V))
    (h : NodupSomes (x :: rest)) : NodupSomes rest := by
  unfold NodupSomes at h ⊢
  cases x with
  | none => simpa using h
  | some a => exact (List.nodup_cons.mp (by simpa using h)).2

theorem nodupSomes_unique (l : List (Option V)) (hnd : NodupSomes l) (w : V) :
    ∀ k1 k2, k1 < l.length → k2 < l.length →
      l.getD k1 none = some w → l.getD k2 none = some w → k1 = k2 := by
  induction l with
  | nil => intro k1 k2 h1 h2 _ _; simp at h1
  | cons x rest ih =>
    intro k1 k2 h1 h2 hw1 hw2
    cases k1 with
    | zero =>
      cases k2 with
      | zero => rfl
      | succ k2b =>
        exfalso
        have hx : x = some w := hw1
        have hmem : w ∈ rest.filterMap (fun x => x) :=
          mem_filterMap_of_getD rest k2b w (by simpa using h2) hw2
        unfold NodupSomes at hnd
        rw [hx] at hnd
        exact (List.nodup_cons.mp (by simpa using hnd)).1 hmem
    | succ k1b =>
      cases k2 with
      | zero =>
        exfalso
        have hx : x = some w := hw2
        have hmem : w ∈ rest.filterMap (fun x => x) :=
          mem_filterMap_of_getD rest k1b w (by simpa using h1) hw1
        unfold NodupSomes at hnd
        rw [hx] at hnd
        exact (List.nodup_cons.mp (by simpa using hnd)).1 hmem
      | succ k2b =>
        have := ih (nodupSomes_tail x rest hnd) k1b k2b
          (by simpa using h1) (by simpa using h2) hw1 hw2
        omega

end FibreQueue

end Morai

namespace Morai

namespace FibreQueue

variable {V : Type}

theorem cancel_refines [DecidableEq V] (q : FibreQueue V) (id : V)
    (h : Inv q) (hnd : NodupSomes q.toList) :
    (q.cancel id).1 = (q.toList.findIdx? (fun s => decide (s = some id))).isSome
    ∧ Inv (q.cancel id).2
    ∧ (q.cancel id).2.toList = modelCancel q.toList id
    ∧ (q.cancel id).2.head = q.head
    ∧ (q.cancel id).2.tail = q.tail
    ∧ (q.cancel id).2.size = q.size := by
  obtain ⟨hlen, hh, ht, hs, hdead⟩ := h
  cases hfind : q.buffer.findIdx? (fun s => decide (s = some id)) with
  | none =>
    have hcancel : q.cancel id = (false, q) := by
      simp [cancel, hfind]
    have hmodel : q.toList.findIdx? (fun s => decide (s = some id)) = none := by
      cases hm : q.toList.findIdx? (fun s => decide (s = some id)) with
      | none => rfl
      | some k =>
        exfalso
        obtain ⟨hk, hp⟩ := findIdx?_some_spec _ _ k hm
        rw [toList_length] at hk
        have hget := toList_getD q k hk
        have hbuf : q.buffer.getD ((q.tail + k) % q.buffer.length) none = some id := by
          rw [← hget]
          simpa using hp
        have hpos : (q.tail + k) % q.buffer.length < q.buffer.length := Nat.mod_lt _ hlen
        have hmem : (some id) ∈ q.buffer := by
          rw [getD_eq_get _ _ hpos] at hbuf
          exact hbuf ▸ List.get_mem q.buffer _ hpos
        have := findIdx?_none_spec _ _ hfind (some id) hmem
        simp at this
    rw [hcancel, hmodel]
    exact ⟨rfl, ⟨hlen, hh, ht, hs, hdead⟩, by simp [modelCancel, hmodel], rfl, rfl, rfl⟩
  | some j =>
    have hcancel : q.cancel id = (true, { q with buffer := q.buffer.set j none }) := by
      simp [cancel, hfind]
    obtain ⟨hj, hpj⟩ := findIdx?_some_spec _ _ j hfind
    have hbufj : q.buffer.getD j none = some id := by simpa using hpj
    -- the matched slot lies in the live window
    have hlive : ∃ k0, k0 < q.size ∧ j = (q.tail + k0) % q.buffer.length := by
      by_contra hdeadj
      push_neg at hdeadj
      have := hdead j hj (fun k hk heq => hdeadj k hk heq)
      rw [this] at hbufj
      simp at hbufj
    obtain ⟨k0, hk0, hjk0⟩ := hlive
    have htlk0 : q.toList.getD k0 none = some id := by
      rw [toList_getD q k0 hk0, ← hjk0]
      exact hbufj
    have hmodel : q.toList.findIdx? (fun s => decide (s = some id)) = some k0 := by
      cases hm : q.toList.findIdx? (fun s => decide (s = some id)) with
      | none =>
        exfalso
        have hmem : (some id) ∈ q.toList := by
          rw [getD_eq_get _ _ (by rw [toList_length]; exact hk0)] at htlk0
          exact htlk0 ▸ List.get_mem q.toList _ _
        have := findIdx?_none_spec _ _ hm (some id) hmem
        simp at this
      | some k1 =>
        obtain ⟨hk1, hp1⟩ := findIdx?_some_spec _ _ k1 hm
        rw [toList_length] at hk1
        have htl1 : q.toList.getD k1 none = some id := by simpa using hp1
        have := nodupSomes_unique q.toList hnd id k1 k0
          (by rw [toList_length]; exact hk1) (by rw [toList_length]; exact hk0) htl1 htlk0
        rw [this]
    have hls : (q.buffer.set j none).length = q.buffer.length := by simp
    have hsize2 : ({ q with buffer := q.buffer.set j none } : FibreQueue V).size
        = q.size := by
      show (if q.tail ≤ q.head then q.head - q.tail
            else (q.buffer.set j none).length + q.head - q.tail) = q.size
      rw [hls]
      rfl
    rw [hcancel]
    refine ⟨by simp [hmodel], ⟨?_, ?_, ?_, ?_, ?_⟩, ?_, rfl, rfl, hsize2⟩
    · show 0 < (q.buffer.set j none).length
      rw [hls]; exact hlen
    · show q.head < (q.buffer.set j none).length
      rw [hls]; exact hh
    · show q.tail < (q.buffer.set j none).length
      rw [hls]; exact ht
    · rw [hsize2]
      show q.size < (q.buffer.set j none).length
      rw [hls]; exact hs
    · intro j2 hj2 hk
      rw [hsize2] at hk
      rw [hls] at hj2
      have hj2j : j2 ≠ j := by
        intro heq
        exact hk k0 hk0 (by
          show j2 = (q.tail + k0) % (q.buffer.set j none).length
          rw [hls, ← hjk0, heq])
      have hj2old : ∀ k, k < q.size → j2 ≠ (q.tail + k) % q.buffer.length := by
        intro k hkk
        have := hk k hkk
        rw [hls] at this
        exact this
      show (q.buffer.set j none).getD j2 none = none
      rw [getD_set_ne _ _ _ _ (fun heq => hj2j heq.symm)]
      exact hdead j2 hj2 hj2old
    · show ({ q with buffer := q.buffer.set j none } : FibreQueue V).toList
        = modelCancel q.toList id
      unfold modelCancel
      rw [hmodel]
      apply list_eq_of_getD
      · rw [toList_length, hsize2]
        simp [toList_length]
      · intro k hk
        rw [toList_length, hsize2] at hk
        rw [toList_getD _ k (by rw [hsize2]; exact hk)]
        show (q.buffer.set j none).getD
            ((q.tail + k) % (q.buffer.set j none).length) none
          = (q.toList.set k0 none).getD k none
        rw [hls]
        by_cases hkk0 : k = k0
        · subst hkk0
          rw [← hjk0, getD_set_self _ _ _ (by rw [] at hj ⊢; exact hj)]
          rw [getD_set_self _ _ _ (by rw [toList_length]; exact hk)]
        · have hne : (q.tail + k) % q.buffer.length ≠ j := by
            intro heq
            rw [hjk0] at heq
            exact hkk0 (mod_add_inj q.buffer.length q.tail k k0 (by omega) (by omega) heq)
          rw [getD_set_ne _ _ _ _ (fun heq => hne heq.symm)]
          rw [getD_set_ne _ _ _ _ (fun heq => hkk0 heq.symm)]
          exact (toList_getD q k hk).symm

end FibreQueue

end Morai

namespace Morai

namespace FibreQueue

variable {V : Type}

theorem push_grow_eq (q : FibreQueue V) (v : V) (pos : PriorityPosition)
    (hf : q.full = true) (hgf : q.grow.full = false) :
    q.push v pos = q.grow.push v pos := by
  unfold push
  rw [hf, hgf]
  simp

theorem push_refines (q : FibreQueue V) (v : V) (pos : PriorityPosition) (h : Inv q) :
    Inv (q.push v pos) ∧ (q.push v pos).toList = modelPush q.toList v pos := by
  cases hf : q.full with
  | false =>
    cases pos with
    | Back =>
      obtain ⟨h1, h2⟩ := push_back_refines q v h hf
      exact ⟨h1, by rw [h2]; rfl⟩
    | Front =>
      obtain ⟨h1, h2⟩ := push_front_refines q v h hf
      exact ⟨h1, by rw [h2]; rfl⟩
  | true =>
    obtain ⟨hgi, hgl, hgf⟩ := grow_refines q h
    rw [push_grow_eq q v pos hf hgf]
    cases pos with
    | Back =>
      obtain ⟨h1, h2⟩ := push_back_refines q.grow v hgi hgf
      exact ⟨h1, by rw [h2, hgl]; rfl⟩
    | Front =>
      obtain ⟨h1, h2⟩ := push_front_refines q.grow v hgi hgf
      exact ⟨h1, by rw [h2, hgl]; rfl⟩

theorem filterMap_set_none_subset (l : List (Option V)) (k : ℕ) (w : V)
    (h : w ∈ (l.set k none).filterMap (fun x => x)) : w ∈ l.filterMap (fun x => x) := by
  induction l generalizing k with
  | nil => simpa using h
  | cons x rest ih =>
    cases k with
    | zero =>
      simp only [List.set_cons_zero, List.filterMap_cons] at h ⊢
      cases x with
      | none => simpa using h
      | some a => exact List.mem_cons_of_mem a (by simpa using h)
    | succ kb =>
      simp only [List.set_cons_succ, List.filterMap_cons] at h ⊢
      cases x with
      | none => exact ih kb h
      | some a =>
        rcases List.mem_cons.mp h with rfl | h2
        · exact List.mem_cons_self _ _
        · exact List.mem_cons_of_mem a (ih kb h2)

theorem nodupSomes_set_none (l : List (Option V)) (k : ℕ) (h : NodupSomes l) :
    NodupSomes (l.set k none) := by
  induction l generalizing k with
  | nil => simpa using h
  | cons x rest ih =>
    cases k with
    | zero =>
      have := nodupSomes_tail x rest h
      unfold NodupSomes at this ⊢
      simpa using this
    | succ kb =>
      unfold NodupSomes at h ⊢
      simp only [List.set_cons_succ, List.filterMap_cons] at h ⊢
      cases x with
      | none =>
        exact ih kb h
      | some a =>
        rw [List.nodup_cons] at h ⊢
        exact ⟨fun hmem => h.1 (filterMap_set_none_subset rest kb a hmem), ih kb h.2⟩

theorem nodupSomes_modelCancel [DecidableEq V] (l : List (Option V)) (id : V)
    (h : NodupSomes l) : NodupSomes (modelCancel l id) := by
  unfold modelCancel
  cases hf : l.findIdx? (fun s => decide (s = some id)) with
  | none => exact h
  | some j => exact nodupSomes_set_none l j h

theorem filterMap_modelCancel_subset [DecidableEq V] (l : List (Option V)) (id : V)
    (w : V) (h : w ∈ (modelCancel l id).filterMap (fun x => x)) :
    w ∈ l.filterMap (fun x => x) := by
  unfold modelCancel at h
  cases hf : l.findIdx? (fun s => decide (s = some id)) with
  | none => rw [hf] at h; exact h
  | some j => rw [hf] at h; exact filterMap_set_none_subset l j w h

theorem nodupSomes_modelPush (l : List (Option V)) (v : V) (pos : PriorityPosition)
    (h : NodupSomes l) (hfresh : v ∉ l.filterMap (fun x => x)) :
    NodupSomes (modelPush l v pos) := by
  unfold NodupSomes at h ⊢
  cases pos with
  | Back =>
    show ((l ++ [some v]).filterMap (fun x => x)).Nodup
    rw [List.filterMap_append]
    simp only [List.filterMap_cons, List.filterMap_nil]
    exact List.Nodup.append h (List.nodup_singleton v)
      (fun a ha hav => hfresh (by rwa [List.mem_singleton.mp hav] at ha))
  | Front =>
    show ((some v :: l).filterMap (fun x => x)).Nodup
    simp only [List.filterMap_cons]
    exact List.nodup_cons.mpr ⟨hfresh, h⟩

end FibreQueue

end Morai

namespace Morai

/-- Operations of a `FibreQueue` trace: pushes (with a position), pops, and
in-place cancellations. -/
inductive QOp (V : Type) : Type
  | push (v : V) (pos : PriorityPosition)
  | pop
  | cancel (id : V)
deriving DecidableEq

/-- Run a sequence of operations on a concrete `FibreQueue`, collecting the
result of every pop. -/
def FibreQueue.runOps {V : Type} [DecidableEq V] :
    FibreQueue V → List (QOp V) → FibreQueue V × List (Option (Option V))
  | q, [] => (q, [])
  | q, QOp.push v pos :: rest => FibreQueue.runOps (q.push v pos) rest
  | q, QOp.pop :: rest =>
    let pr := q.pop
    let res := FibreQueue.runOps pr.2 rest
    (res.1, pr.1 :: res.2)
  | q, QOp.cancel id :: rest => FibreQueue.runOps (q.cancel id).2 rest

/-- Run the same operations on the abstract FIFO list model. -/
def modelRun {V : Type} [DecidableEq V] :
    List (Option V) → List (QOp V) → List (Option V) × List (Option (Option V))
  | l, [] => (l, [])
  | l, QOp.push v pos :: rest => modelRun (modelPush l v pos) rest
  | l, QOp.pop :: rest =>
    let pr := modelPop l
    let res := modelRun pr.2 rest
    (res.1, pr.1 :: res.2)
  | l, QOp.cancel id :: rest => modelRun (modelCancel l id) rest

/-- The values pushed by a trace, in order. -/
def pushedValues {V : Type} : List (QOp V) → List V
  | [] => []
  | QOp.push v _ :: rest => v :: pushedValues rest
  | QOp.pop :: rest => pushedValues rest
  | QOp.cancel _ :: rest => pushedValues rest

/-- The number of pops in a trace. -/
def popCount {V : Type} : List (QOp V) → ℕ
  | [] => 0
  | QOp.pop :: rest => popCount rest + 1
  | QOp.push _ _ :: rest => popCount rest
  | QOp.cancel _ :: rest => popCount rest

/-- Every pop in the trace happens while the queue (whose current length is
tracked) is nonempty — the prefix condition making `j ≤ k` meaningful. -/
def popsOk {V : Type} : ℕ → List (QOp V) → Bool
  | _, [] => true
  | len, QOp.push _ _ :: rest => popsOk (len + 1) rest
  | len, QOp.pop :: rest => decide (0 < len) && popsOk (len - 1) rest
  | len, QOp.cancel _ :: rest => popsOk len rest

namespace FibreQueue

variable {V : Type}

theorem runOps_refines [DecidableEq V] (ops : List (QOp V)) :
    ∀ (q : FibreQueue V) (l : List (Option V)) (prev : List V),
      Inv q → q.toList = l → NodupSomes l →
      (∀ w, w ∈ l.filterMap (fun x => x) → w ∈ prev) →
      (prev ++ pushedValues ops).Nodup →
      popsOk l.length ops = true →
      Inv (FibreQueue.runOps q ops).1
      ∧ (FibreQueue.runOps q ops).1.toList = (modelRun l ops).1
      ∧ (FibreQueue.runOps q ops).2 = (modelRun l ops).2 := by
  induction ops with
  | nil =>
    intro q l prev hi htl _ _ _ _
    exact ⟨hi, by simpa [FibreQueue.runOps, modelRun] using htl, rfl⟩
  | cons op rest ih =>
    intro q l prev hi htl hnd hsub hnodup hpops
    cases op with
    | push v pos =>
      have hnodup2 : (prev ++ v :: pushedValues rest).Nodup := by
        simpa [pushedValues] using hnodup
      have hfresh : v ∉ l.filterMap (fun x => x) := by
        intro hmem
        have hv : v ∈ prev := hsub v hmem
        rcases List.nodup_append.mp hnodup2 with ⟨_, _, hdisj⟩
        exact hdisj hv (List.mem_cons_self _ _)
      obtain ⟨hi2, htl2⟩ := push_refines q v pos hi
      rw [htl] at htl2
      have hnd2 : NodupSomes (modelPush l v pos) := nodupSomes_modelPush l v pos hnd hfresh
      have hsub2 : ∀ w, w ∈ (modelPush l v pos).filterMap (fun x => x) → w ∈ prev ++ [v] := by
        intro w hw
        cases pos with
        | Back =>
          rw [show modelPush l v PriorityPosition.Back = l ++ [some v] from rfl,
            List.filterMap_append] at hw
          rcases List.mem_append.mp hw with hw | hw
          · exact List.mem_append_left _ (hsub w hw)
          · simp only [List.filterMap_cons, List.filterMap_nil] at hw
            exact List.mem_append_right _ (by simpa using hw)
        | Front =>
          rw [show modelPush l v PriorityPosition.Front = some v :: l from rfl] at hw
          simp only [List.filterMap_cons] at hw
          rcases List.mem_cons.mp hw with rfl | hw
          · exact List.mem_append_right _ (List.mem_singleton.mpr rfl)
          · exact List.mem_append_left _ (hsub w hw)
      have hnodup3 : ((prev ++ [v]) ++ pushedValues rest).Nodup := by
        rw [List.append_assoc]
        simpa using hnodup2
      have hlen2 : (modelPush l v pos).length = l.length + 1 := by
        cases pos <;> simp [modelPush]
      have hpops2 : popsOk (modelPush l v pos).length rest = true := by
        rw [hlen2]
        simpa [popsOk] using hpops
      have := ih (q.push v pos) (modelPush l v pos) (prev ++ [v]) hi2 htl2 hnd2 hsub2
        hnodup3 hpops2
      simpa [FibreQueue.runOps, modelRun] using this
    | pop =>
      have hlen_pos : 0 < l.length := by
        by_contra h0
        have hl0 : l.length = 0 := by omega
        rw [show popsOk l.length (QOp.pop :: rest)
            = (decide (0 < l.length) && popsOk (l.length - 1) rest) from rfl, hl0] at hpops
        simp at hpops
      obtain ⟨a, restl, rfl⟩ : ∃ a restl, l = a :: restl := by
        cases l with
        | nil => simp at hlen_pos
        | cons a r => exact ⟨a, r, rfl⟩
      obtain ⟨hp1, hi2, htl2⟩ := pop_refines q a restl hi htl
      have hnd2 := nodupSomes_tail a restl hnd
      have hsub2 : ∀ w, w ∈ restl.filterMap (fun x => x) → w ∈ prev := by
        intro w hw
        apply hsub w
        cases a with
        | none => simpa [List.filterMap_cons] using hw
        | some b =>
          simp only [List.filterMap_cons]
          exact List.mem_cons_of_mem b hw
      have hpops2 : popsOk restl.length rest = true := by
        rw [show popsOk (a :: restl).length (QOp.pop :: rest)
            = (decide (0 < (a :: restl).length) && popsOk ((a :: restl).length - 1) rest)
            from rfl] at hpops
        simpa using hpops
      have hrec := ih (q.pop).2 restl prev hi2 htl2 hnd2 hsub2
        (by simpa [pushedValues] using hnodup) hpops2
      refine ⟨hrec.1, hrec.2.1, ?_⟩
      show (q.pop).1 :: (FibreQueue.runOps (q.pop).2 rest).2
          = (modelPop (a :: restl)).1 :: (modelRun (modelPop (a :: restl)).2 rest).2
      rw [hp1]
      exact congrArg _ hrec.2.2
    | cancel id =>
      obtain ⟨hflag, hi2, htl2, _, _, _⟩ := cancel_refines q id hi (htl ▸ hnd)
      rw [htl] at htl2
      have hnd2 := nodupSomes_modelCancel l id hnd
      have hsub2 : ∀ w, w ∈ (modelCancel l id).filterMap (fun x => x) → w ∈ prev :=
        fun w hw => hsub w (filterMap_modelCancel_subset l id w hw)
      have hlen2 : (modelCancel l id).length = l.length := by
        unfold modelCancel
        cases l.findIdx? (fun s => decide (s = some id)) <;> simp
      have hpops2 : popsOk (modelCancel l id).length rest = true := by
        rw [hlen2]
        simpa [popsOk] using hpops
      have := ih (q.cancel id).2 (modelCancel l id) prev hi2 htl2 hnd2 hsub2
        (by simpa [pushedValues] using hnodup) hpops2
      simpa [FibreQueue.runOps, modelRun] using this

end FibreQueue

end Morai

namespace Morai

theorem modelRun_length {V : Type} [DecidableEq V] (ops : List (QOp V)) :
    ∀ l : List (Option V), popsOk l.length ops = true →
      (modelRun l ops).1.length + popCount ops = l.length + (pushedValues ops).length := by
  induction ops with
  | nil => intro l _; simp [modelRun, popCount, pushedValues]
  | cons op rest ih =>
    intro l hpops
    cases op with
    | push v pos =>
      have hlen2 : (modelPush l v pos).length = l.length + 1 := by
        cases pos <;> simp [modelPush]
      have := ih (modelPush l v pos) (by rw [hlen2]; simpa [popsOk] using hpops)
      rw [hlen2] at this
      show (modelRun (modelPush l v pos) rest).1.length + popCount rest
          = l.length + (v :: pushedValues rest).length
      simp only [List.length_cons]
      omega
    | pop =>
      cases l with
      | nil =>
        rw [show popsOk ([] : List (Option V)).length (QOp.pop :: rest)
            = (decide ((0 : ℕ) < 0) && popsOk (0 - 1) rest) from rfl] at hpops
        simp at hpops
      | cons a restl =>
        have hpops2 : popsOk restl.length rest = true := by
          rw [show popsOk (a :: restl).length (QOp.pop :: rest)
              = (decide (0 < (a :: restl).length) && popsOk ((a :: restl).length - 1) rest)
              from rfl] at hpops
          simpa using hpops
        have := ih restl hpops2
        show (modelRun restl rest).1.length + (popCount rest + 1)
            = (a :: restl).length + (pushedValues rest).length
        simp only [List.length_cons]
        omega
    | cancel id =>
      have hlen2 : (modelCancel l id).length = l.length := by
        unfold modelCancel
        cases l.findIdx? (fun s => decide (s = some id)) <;> simp
      have := ih (modelCancel l id) (by rw [hlen2]; simpa [popsOk] using hpops)
      rw [hlen2] at this
      show (modelRun (modelCancel l id) rest).1.length + popCount rest
          = l.length + (pushedValues rest).length
      omega

/-- C7: for every `FibreQueue` and every operation sequence of `k` pushes and
`j` pops (`j ≤ k` prefix-wise: no pop on an empty queue), with any in-place
cancellations interleaved and regardless of capacity growth in between, the
final `size()` is `k - j`, and the pops return exactly the entries that the
abstract FIFO model returns: FIFO order of the pushes, where `Front`
insertions pop before earlier entries and cancelled-in-place entries pop as
invalid placeholders.  The pushed fibres are pairwise distinct, as fibre ids
are. -/
theorem fibre_queue_fifo_size (cap0 : ℕ) (prio : Int) (ops : List (QOp ℕ))
    (hpops : popsOk 0 ops = true)
    (hnodup : (pushedValues ops).Nodup) :
    ((FibreQueue.init prio cap0 : FibreQueue ℕ).runOps ops).1.size
        = (pushedValues ops).length - popCount ops
    ∧ ((FibreQueue.init prio cap0 : FibreQueue ℕ).runOps ops).2 = (modelRun [] ops).2 := by
  obtain ⟨hi, htl⟩ := FibreQueue.init_refines prio cap0
  have hrun := FibreQueue.runOps_refines ops (FibreQueue.init prio cap0) [] [] hi htl
    (by simp [NodupSomes]) (by simp) (by simpa using hnodup)
    (by simpa using hpops)
  have hml := modelRun_length ops ([] : List (Option ℕ)) (by simpa using hpops)
  refine ⟨?_, hrun.2.2⟩
  have hsz : ((FibreQueue.init prio cap0 : FibreQueue ℕ).runOps ops).1.size
      = (modelRun ([] : List (Option ℕ)) ops).1.length := by
    rw [← FibreQueue.toList_length, hrun.2.1]
  rw [hsz]
  simp only [List.length_nil] at hml
  omega

/-- Witness for `fibre_queue_fifo_size`: three pushes (one at the front), one
cancellation and three pops; the queue ends empty and the pops return the
front insertion first, then the untouched entry, then the cancelled
placeholder as an invalid fibre. -/
theorem fibre_queue_fifo_size_witness :
    popsOk 0 [QOp.push 1 PriorityPosition.Back, QOp.push 2 PriorityPosition.Back,
      QOp.push 3 PriorityPosition.Front, QOp.cancel 2, QOp.pop, QOp.pop, QOp.pop] = true
    ∧ (pushedValues [QOp.push 1 PriorityPosition.Back, QOp.push 2 PriorityPosition.Back,
        QOp.push 3 PriorityPosition.Front, QOp.cancel 2, QOp.pop, QOp.pop,
        QOp.pop]).Nodup
    ∧ ((FibreQueue.init 0 4 : FibreQueue ℕ).runOps
        [QOp.push 1 PriorityPosition.Back, QOp.push 2 PriorityPosition.Back,
         QOp.push 3 PriorityPosition.Front, QOp.cancel 2, QOp.pop, QOp.pop,
         QOp.pop]).1.size = 0
    ∧ ((FibreQueue.init 0 4 : FibreQueue ℕ).runOps
        [QOp.push 1 PriorityPosition.Back, QOp.push 2 PriorityPosition.Back,
         QOp.push 3 PriorityPosition.Front, QOp.cancel 2, QOp.pop, QOp.pop,
         QOp.pop]).2
      = [some (some 3), some (some 1), some none] := by
  refine ⟨by decide, by decide, ?_, ?_⟩
  · have := (fibre_queue_fifo_size 4 0
      [QOp.push 1 PriorityPosition.Back, QOp.push 2 PriorityPosition.Back,
       QOp.push 3 PriorityPosition.Front, QOp.cancel 2, QOp.pop, QOp.pop, QOp.pop]
      (by decide) (by decide)).1
    simpa using this
  · have := (fibre_queue_fifo_size 4 0
      [QOp.push 1 PriorityPosition.Back, QOp.push 2 PriorityPosition.Back,
       QOp.push 3 PriorityPosition.Front, QOp.cancel 2, QOp.pop, QOp.pop, QOp.pop]
      (by decide) (by decide)).2
    rw [this]
    decide

end Morai

namespace Morai

/-- Per-queue size is untouched by `FibreQueue::cancel`: the swap replaces the
entry in place and never moves `head`, `tail` or the buffer length. -/
theorem FibreQueue.cancel_size {V : Type} [DecidableEq V] (q : FibreQueue V) (id : V) :
    (q.cancel id).2.size = q.size := by
  unfold FibreQueue.cancel
  cases hf : q.buffer.findIdx? (fun s => decide (s = some id)) with
  | none => rfl
  | some j =>
    show (if q.tail ≤ q.head then q.head - q.tail
          else (q.buffer.set j none).length + q.head - q.tail)
        = q.size
    rw [List.length_set]
    rfl

/-- Embedding of the queue scan of `Scheduler::cancel`,
`src/morai/Scheduler.cpp` lines 37-52: try `queue.cancel(fibre_id)` on each
priority queue in order and stop at the first success.  (The C++ first
rejects an invalid `Id`; queue entries here are the valid ids.) -/
def Scheduler.cancelScan {V : Type} [DecidableEq V] :
    List (FibreQueue V) → V → Bool × List (FibreQueue V)
  | [], _ => (false, [])
  | fq :: rest, id =>
    let c := fq.cancel id
    if c.1 then (true, c.2 :: rest)
    else
      let r := Scheduler.cancelScan rest id
      (r.1, fq :: r.2)

/-- Embedding of `Scheduler::cancel` together with its frame effect on the
shared running bits: `FibreQueue::cancel` swaps the matching fibre into the
local `replace`, which is destroyed when the call returns
(`Fibre::~Fibre` destroys the coroutine handle, whose
`promise_type::~promise_type` clears the running bit,
`src/morai/FibreQueue.cpp` lines 90-106 and `src/morai/Fibre.hpp` lines
129-130 and 31-38).  `running` is the set of ids whose running bit is set; a
successful cancel erases the cancelled id during the call. -/
def Scheduler.cancelModel {V : Type} [DecidableEq V] (queues : List (FibreQueue V))
    (running : List V) (id : V) : Bool × List (FibreQueue V) × List V :=
  let r := Scheduler.cancelScan queues id
  (r.1, r.2, if r.1 then running.erase id else running)

/-- Embedding of `Scheduler::runningCount`, `src/morai/Scheduler.hpp` lines
103-111: the sum of the queue sizes plus the move queue size. -/
def Scheduler.runningCount {V : Type} (queues : List (FibreQueue V))
    (move_queue_size : ℕ) : ℕ :=
  (queues.map FibreQueue.size).sum + move_queue_size

/-- Embedding of `Scheduler::empty`, `src/morai/Scheduler.hpp` line 101. -/
def Scheduler.isEmpty {V : Type} (queues : List (FibreQueue V))
    (move_queue_size : ℕ) : Bool :=
  decide (Scheduler.runningCount queues move_queue_size = 0)

theorem Scheduler.cancelScan_sizes {V : Type} [DecidableEq V]
    (queues : List (FibreQueue V)) (id : V) :
    ((Scheduler.cancelScan queues id).2.map FibreQueue.size)
      = queues.map FibreQueue.size := by
  induction queues with
  | nil => rfl
  | cons fq rest ih =>
    show ((if (fq.cancel id).1 then (true, (fq.cancel id).2 :: rest)
           else ((Scheduler.cancelScan rest id).1,
                 fq :: (Scheduler.cancelScan rest id).2)).2.map FibreQueue.size)
        = fq.size :: rest.map FibreQueue.size
    by_cases hc : (fq.cancel id).1
    · rw [if_pos hc]
      simp [FibreQueue.cancel_size]
    · rw [if_neg hc]
      simpa using ih

/-- C10: when `Scheduler::cancel(id)` returns true, the cancelled fibre's
coroutine frame is destroyed during the cancel call itself — its `Id` stops
running before any subsequent `update()` — while every queue's entry count,
and therefore `runningCount()` and `empty()`, are unchanged (the in-place
placeholder is only consumed, as an expired invalid fibre, by a later
drain). -/
theorem scheduler_cancel_frame_effect {V : Type} [DecidableEq V]
    (queues : List (FibreQueue V)) (running : List V) (id : V) (move_queue_size : ℕ)
    (hrun : running.Nodup)
    (hfound : (Scheduler.cancelModel queues running id).1 = true) :
    id ∉ (Scheduler.cancelModel queues running id).2.2
    ∧ ((Scheduler.cancelModel queues running id).2.1.map FibreQueue.size
        = queues.map FibreQueue.size)
    ∧ Scheduler.runningCount (Scheduler.cancelModel queues running id).2.1 move_queue_size
        = Scheduler.runningCount queues move_queue_size
    ∧ Scheduler.isEmpty (Scheduler.cancelModel queues running id).2.1 move_queue_size
        = Scheduler.isEmpty queues move_queue_size := by
  have hscan : (Scheduler.cancelScan queues id).1 = true := hfound
  have hsizes := Scheduler.cancelScan_sizes queues id
  refine ⟨?_, hsizes, ?_, ?_⟩
  · show id ∉ (if (Scheduler.cancelScan queues id).1 then running.erase id else running)
    rw [hscan, if_pos rfl]
    exact hrun.not_mem_erase
  · show (List.map FibreQueue.size (Scheduler.cancelScan queues id).2).sum + move_queue_size
        = (List.map FibreQueue.size queues).sum + move_queue_size
    rw [hsizes]
  · show decide ((List.map FibreQueue.size (Scheduler.cancelScan queues id).2).sum
        + move_queue_size = 0)
      = decide ((List.map FibreQueue.size queues).sum + move_queue_size = 0)
    rw [hsizes]

end Morai

namespace Morai

/-- Witness for `scheduler_cancel_frame_effect`: one queue holding fibre 7,
running set containing 7; cancelling 7 succeeds, clears its running bit during
the call, and leaves the queue size, running count and emptiness unchanged. -/
theorem scheduler_cancel_frame_effect_witness :
    ([7] : List ℕ).Nodup
    ∧ (Scheduler.cancelModel
        [(FibreQueue.init 0 4 : FibreQueue ℕ).push 7 PriorityPosition.Back] [7] 7).1 = true
    ∧ (7 ∉ (Scheduler.cancelModel
          [(FibreQueue.init 0 4 : FibreQueue ℕ).push 7 PriorityPosition.Back] [7] 7).2.2
       ∧ ((Scheduler.cancelModel
            [(FibreQueue.init 0 4 : FibreQueue ℕ).push 7 PriorityPosition.Back]
            [7] 7).2.1.map FibreQueue.size
          = [(FibreQueue.init 0 4 : FibreQueue ℕ).push 7 PriorityPosition.Back].map
              FibreQueue.size)
       ∧ Scheduler.runningCount
            (Scheduler.cancelModel
              [(FibreQueue.init 0 4 : FibreQueue ℕ).push 7 PriorityPosition.Back]
              [7] 7).2.1 0
          = Scheduler.runningCount
              [(FibreQueue.init 0 4 : FibreQueue ℕ).push 7 PriorityPosition.Back] 0
       ∧ Scheduler.isEmpty
            (Scheduler.cancelModel
              [(FibreQueue.init 0 4 : FibreQueue ℕ).push 7 PriorityPosition.Back]
              [7] 7).2.1 0
          = Scheduler.isEmpty
              [(FibreQueue.init 0 4 : FibreQueue ℕ).push 7 PriorityPosition.Back] 0) :=
  ⟨by decide, by decide,
   scheduler_cancel_frame_effect
     [(FibreQueue.init 0 4 : FibreQueue ℕ).push 7 PriorityPosition.Back] [7] 7 0
     (by decide) (by decide)⟩

end Morai
